import Mathlib

/- Shallow embedding of the go-nuget-server package index and feed engine
   (src/unnamed/part_000, the newest variant of filestore-local.go, plus the
   HTTP glue in main.go).  Go strings are modelled through their character
   lists, Go byte slices as List Nat, Go maps as association lists, and the
   filesystem as an explicit store state.  External collaborators that are
   not part of this repository snapshot (zip/nuspec extraction, sha512) are
   supplied as parameters, modelled from the spec (section 4.1). -/

namespace NugetServer

/-- Raw archive bytes (Go byte slice). -/
abbrev Bytes := List Nat

/-! ## Character-level string utilities (models of Go strings/path helpers) -/

/-- Model of strings.HasPrefix: does the char list s start with pat. -/
def listStartsWith : List Char → List Char → Bool
  | [], _ => true
  | _ :: _, [] => false
  | p :: ps, c :: cs => p == c && listStartsWith ps cs

/-- Model of strings.Contains: does pat occur contiguously inside s. -/
def listContainsSub : List Char → List Char → Bool
  | [], pat => pat.isEmpty
  | c :: cs, pat => listStartsWith pat (c :: cs) || listContainsSub cs pat

/-- String-level wrapper of listContainsSub. -/
def containsSubStr (s pat : String) : Bool := listContainsSub s.data pat.data

/-- Model of strings.HasSuffix. -/
def endsWithStr (s suffix : String) : Bool := listStartsWith suffix.data.reverse s.data.reverse

/-- Go compares strings byte-lexicographically; we model the comparison on
    the character list (they agree on the ASCII data in this system). -/
def lexLt : List Char → List Char → Bool
  | [], [] => false
  | [], _ :: _ => true
  | _ :: _, [] => false
  | a :: xs, b :: ys => if a < b then true else if b < a then false else lexLt xs ys

/-- Go string comparison s1 < s2 as a Bool. -/
def strLt (s1 s2 : String) : Bool := lexLt s1.data s2.data

/-- Model of strings.ToLower (the ids in this system are ASCII, where Go's
    Unicode lowering agrees with Char.toLower). -/
def toLowerStr (s : String) : String := ⟨s.data.map Char.toLower⟩

/-- Model of strings.EqualFold (ASCII simple fold). -/
def equalFold (a b : String) : Bool := toLowerStr a == toLowerStr b

/-! ## The version comparator (compareVersions, part_000 lines 180-213) -/

/-- Helper of goScanInt: decimal value of a digit list (most significant first). -/
def digitsToNat (acc : Nat) : List Char → Nat
  | [] => acc
  | c :: cs => digitsToNat (acc * 10 + (c.toNat - '0'.toNat)) cs

/-- The whitespace table of fmt (fmt/scan.go, var space): the runes SkipSpace
    consumes. -/
def fmtIsSpace (c : Char) : Bool :=
  (0x09 ≤ c.toNat && c.toNat ≤ 0x0D) || c.toNat == 0x20 || c.toNat == 0x85 ||
  c.toNat == 0xA0 || c.toNat == 0x1680 ||
  (0x2000 ≤ c.toNat && c.toNat ≤ 0x200A) || c.toNat == 0x2028 ||
  c.toNat == 0x2029 || c.toNat == 0x202F || c.toNat == 0x205F ||
  c.toNat == 0x3000

/-- Model of what fmt.Sscanf(p, "%d", &n) leaves in an n initialised to 0,
    the returned error being ignored (Go 1.13 fmt/scan.go scanInt, bitSize 64
    on this amd64 image): SkipSpace consumes leading whitespace runes but a
    newline is an error for Sscanf (nlIsSpace is false; a carriage return
    directly before the newline is consumed first, and a lone carriage return
    is ordinary space); then an optional sign and a non-empty run of decimal
    digits form the token (whatever follows the digits is left unread), and
    strconv.ParseInt(token, 10, 64) range-errors outside int64.  Every error
    path panics inside the scanner before the operand is assigned, so n keeps
    its 0; otherwise n is the exact signed value of the digit run. -/
def goScanInt (cs : List Char) : Int :=
  let cs1 := cs.dropWhile (fun c => fmtIsSpace c && c != '\n')
  match cs1 with
  | '\n' :: _ => 0
  | cs2 =>
    let signRest : Bool × List Char :=
      match cs2 with
      | '-' :: r => (true, r)
      | '+' :: r => (false, r)
      | r => (false, r)
    let ds := signRest.2.takeWhile Char.isDigit
    if ds.isEmpty then 0
    else
      let v : Int :=
        if signRest.1 then - (digitsToNat 0 ds : Int) else (digitsToNat 0 ds : Int)
      if v < -9223372036854775808 || 9223372036854775807 < v then 0 else v

/-- Model of strings.Split(v, ".") on the char list (accumulator helper). -/
def splitOnDotAux (acc : List Char) : List Char → List (List Char)
  | [] => [acc.reverse]
  | c :: cs => if c == '.' then acc.reverse :: splitOnDotAux [] cs else splitOnDotAux (c :: acc) cs

/-- Model of strings.Split(v, "."). -/
def splitOnDot (s : List Char) : List (List Char) := splitOnDotAux [] s

/-- The parse closure of compareVersions: split on '.', Sscanf each component. -/
def parseVersionNums (v : String) : List Int := (splitOnDot v.data).map goScanInt

/-- Tail of the comparison loop of compareVersions once the left operand is
    exhausted: the left component defaults to 0 against each remaining y. -/
def cmpZeros : List Int → Int
  | [] => 0
  | y :: ys => if 0 < y then -1 else if y < 0 then 1 else cmpZeros ys

/-- The comparison loop of compareVersions: indices run to the longer length,
    missing components default to 0, return at the first difference. -/
def cmpIntList : List Int → List Int → Int
  | [], ys => cmpZeros ys
  | x :: xs, [] => if x < 0 then -1 else if 0 < x then 1 else cmpIntList xs []
  | x :: xs, y :: ys => if x < y then -1 else if y < x then 1 else cmpIntList xs ys

/-- compareVersions (part_000 lines 180-213). -/
def compareVersions (v1 v2 : String) : Int :=
  cmpIntList (parseVersionNums v1) (parseVersionNums v2)

/-- Value of a component under the claim C2 wording: parsed as a non-negative
    integer, unparsable components treated as 0.  A component is parsable as a
    non-negative integer exactly when it is a non-empty run of decimal digits. -/
def specComponentVal (cs : List Char) : Int :=
  if cs.isEmpty = false && cs.all Char.isDigit then (digitsToNat 0 cs : Int) else 0

/-- The comparator described by claim C2's own words (split on '.', parse each
    component as a non-negative integer with unparsable components treated as
    0, pad with zeros, compare component-wise). -/
def compareVersionsClaimC2 (v1 v2 : String) : Int :=
  cmpIntList ((splitOnDot v1.data).map specComponentVal)
    ((splitOnDot v2.data).map specComponentVal)

/-- Zero-padding of a component list to length n (spec wording: pads the
    shorter sequence with zero-components). -/
def padZeros (l : List Int) (n : Nat) : List Int := l ++ List.replicate (n - l.length) 0

/-- Component-wise left-to-right comparison of two equal-length sequences,
    returning at the first difference. -/
def cmpSameLen : List Int → List Int → Int
  | x :: xs, y :: ys => if x < y then -1 else if y < x then 1 else cmpSameLen xs ys
  | _, _ => 0

/-- The amended C2 comparator: split on '.', parse each component exactly as
    Go's Sscanf %d verb does (fmt whitespace is skipped except that a newline
    aborts the scan, then an optional sign and a non-empty decimal digit run
    are read; a missing digit run, a newline, or a value outside int64 leaves
    the component 0), pad the shorter sequence with zero components, and
    compare component-wise left to right, returning at the first
    difference. -/
def compareVersionsAmendedC2 (v1 v2 : String) : Int :=
  let a := parseVersionNums v1
  let b := parseVersionNums v2
  let n := max a.length b.length
  cmpSameLen (padZeros a n) (padZeros b n)

/-! ## Timestamp parsing (model of time.Parse(time.RFC3339, s)) -/

/-- Read exactly n decimal digits, returning their value and the rest. -/
def readNDigits (n : Nat) (cs : List Char) : Option (Nat × List Char) :=
  let ds := cs.take n
  if ds.length == n && ds.all Char.isDigit then some (digitsToNat 0 ds, cs.drop n) else none

/-- Expect a single literal character. -/
def expectChar (c : Char) : List Char → Option (List Char)
  | x :: xs => if x == c then some xs else none
  | [] => none

def isLeapYear (y : Nat) : Bool := (y % 4 == 0 && y % 100 != 0) || (y % 400 == 0)

def daysInMonth (y m : Nat) : Nat :=
  if m == 2 then (if isLeapYear y then 29 else 28)
  else if m == 4 || m == 6 || m == 9 || m == 11 then 30
  else 31

/-- Days from 1970-01-01 to the proleptic Gregorian date y-m-d. -/
def daysFromCivil (y m d : Nat) : Int :=
  let y2 : Int := if m ≤ 2 then (y : Int) - 1 else (y : Int)
  let era : Int := Int.fdiv y2 400
  let yoe : Int := y2 - era * 400
  let mp : Int := ((m : Int) + 9) % 12
  let doy : Int := Int.fdiv (153 * mp + 2) 5 + ((d : Int) - 1)
  let doe : Int := yoe * 365 + Int.fdiv yoe 4 - Int.fdiv yoe 100 + doy
  era * 146097 + doe - 719468

/-- Fractional seconds after the dot: at least one digit; value in nanoseconds
    (digits beyond the ninth are ignored, as in Go). -/
def readFrac (cs : List Char) : Option (Nat × List Char) :=
  let ds := cs.takeWhile Char.isDigit
  if ds.isEmpty then none
  else
    let nine := ds.take 9
    some (digitsToNat 0 nine * 10 ^ (9 - nine.length), cs.drop ds.length)

/-- Zone suffix: Z, or a signed hh:mm offset; must consume the whole rest.
    Returns the offset in seconds. -/
def readZone (cs : List Char) : Option Int :=
  match cs with
  | ['Z'] => some 0
  | c :: rest =>
    if c == '+' || c == '-' then
      match readNDigits 2 rest with
      | some (hh, r1) =>
        match r1 with
        | ':' :: r2 =>
          match readNDigits 2 r2 with
          | some (mm, r3) =>
            if r3.isEmpty && hh < 24 && mm < 60 then
              some ((if c == '-' then (-1 : Int) else 1) * ((hh * 3600 + mm * 60 : Nat) : Int))
            else none
          | none => none
        | _ => none
      | none => none
    else none
  | _ => none

/-- Date part YYYY-MM-DD of the RFC3339 grammar. -/
def parseDatePart (cs : List Char) : Option (Nat × Nat × Nat × List Char) :=
  match readNDigits 4 cs with
  | none => none
  | some (y, r1) =>
    match expectChar '-' r1 with
    | none => none
    | some r2 =>
      match readNDigits 2 r2 with
      | none => none
      | some (mo, r3) =>
        match expectChar '-' r3 with
        | none => none
        | some r4 =>
          match readNDigits 2 r4 with
          | none => none
          | some (dd, r5) => some (y, mo, dd, r5)

/-- Clock part Thh:mm:ss of the RFC3339 grammar. -/
def parseClockPart (cs : List Char) : Option (Nat × Nat × Nat × List Char) :=
  match expectChar 'T' cs with
  | none => none
  | some r6 =>
    match readNDigits 2 r6 with
    | none => none
    | some (hh, r7) =>
      match expectChar ':' r7 with
      | none => none
      | some r8 =>
        match readNDigits 2 r8 with
        | none => none
        | some (mi, r9) =>
          match expectChar ':' r9 with
          | none => none
          | some r10 =>
            match readNDigits 2 r10 with
            | none => none
            | some (ss, r11) => some (hh, mi, ss, r11)

/-- Optional fractional-second part. -/
def parseFracPart (cs : List Char) : Option (Nat × List Char) :=
  match cs with
  | '.' :: rest => readFrac rest
  | _ => some (0, cs)

/-- Model of time.Parse(time.RFC3339, s): on success, the absolute instant as
    nanoseconds since the epoch (which is all the sort comparator needs, since
    it only calls Before). -/
def parseRFC3339 (s : String) : Option Int :=
  match parseDatePart s.data with
  | none => none
  | some (y, mo, dd, r5) =>
    match parseClockPart r5 with
    | none => none
    | some (hh, mi, ss, r11) =>
      match parseFracPart r11 with
      | none => none
      | some (nanos, r12) =>
        match readZone r12 with
        | none => none
        | some off =>
          if 1 ≤ mo ∧ mo ≤ 12 ∧ 1 ≤ dd ∧ dd ≤ daysInMonth y mo ∧ hh ≤ 23 ∧ mi ≤ 59 ∧ ss ≤ 59 then
            some ((daysFromCivil y mo dd * 86400 + ((hh * 3600 + mi * 60 + ss : Nat) : Int) - off) * 1000000000 + (nanos : Int))
          else none

/-! ## Data model -/

/-- One catalog entry (NugetPackageEntry).  The nested Properties / BoolProp /
    IntProp wrappers of the Go struct are flattened: the Type tags they carry
    ("Edm.Boolean", "Edm.Int64") are constants that no claim observes.
    The free-form manifest fields carried through from the parsed nuspec are
    represented by authors, description and tags. -/
structure NugetPackageEntry where
  id : String
  version : String
  published : String
  isLatestVersion : Bool
  isAbsoluteLatestVersion : Bool
  versionDownloadCount : Int
  downloadCount : Int
  packageHash : String
  packageSize : Nat
  contentSrc : String
  authors : String
  description : String
  tags : String
deriving DecidableEq

/-- Modelled from the spec: Filename() is defined outside this snapshot; the
    spec (section 3) states it is derived deterministically as id.version. -/
def NugetPackageEntry.filename (p : NugetPackageEntry) : String := p.id ++ "." ++ p.version

/-- The parsed manifest (nuspec.NuSpec metadata) delivered by the external
    parser; only the fields this core consumes are modelled. -/
structure NuSpec where
  id : String
  version : String
  authors : String
  description : String
  tags : String
deriving DecidableEq

/-- Modelled from the spec: the Archive Reader (section 4.1) and the hash are
    external collaborators (archive/zip + go-nuspec + crypto/sha512, none of
    which are in this snapshot).  extract returns the root manifest plus the
    payload entries (path to bytes) of a raw archive, or none on a malformed
    container / missing manifest; both it and hashHex are pure functions. -/
structure ArchiveReader where
  extract : Bytes → Option (NuSpec × List (String × Bytes))
  hashHex : Bytes → String

/-- One file of the flat-file archive root (path relative to rootDir). -/
structure DiskFile where
  path : String
  data : Bytes
  mtime : String
deriving DecidableEq

/-- The fileStoreLocal state: the archive root contents, the in-memory sorted
    catalog, the download-counter table, its persisted copy (downloads.json),
    the server base URL and a clock used as the modification time of newly
    written files. -/
structure StoreState where
  files : List DiskFile
  packages : List NugetPackageEntry
  downloadCounts : List (String × Int)
  savedCounts : List (String × Int)
  baseURL : String
  now : String
deriving DecidableEq

/-! ## Filesystem and counter-table primitives -/

def fileExists (files : List DiskFile) (p : String) : Bool := files.any (fun f => f.path == p)

def findFile (files : List DiskFile) (p : String) : Option DiskFile :=
  files.find? (fun f => f.path == p)

def readFile (files : List DiskFile) (p : String) : Option Bytes :=
  (findFile files p).map (fun f => f.data)

def writeFile (files : List DiskFile) (p : String) (d : Bytes) (t : String) : List DiskFile :=
  if files.any (fun f => f.path == p) then
    files.map (fun f => if f.path == p then ⟨p, d, t⟩ else f)
  else files ++ [⟨p, d, t⟩]

/-- Go map read m[k] with ok flag. -/
def lookupCount (m : List (String × Int)) (k : String) : Option Int :=
  (m.find? (fun kv => kv.1 == k)).map (fun kv => kv.2)

/-- Go map write m[k] = v. -/
def setCount (m : List (String × Int)) (k : String) (v : Int) : List (String × Int) :=
  if m.any (fun kv => kv.1 == k) then m.map (fun kv => if kv.1 == k then (k, v) else kv)
  else m ++ [(k, v)]

/-- Go map increment m[k]++ (absent keys read as 0). -/
def bumpCount (m : List (String × Int)) (k : String) : List (String × Int) :=
  setCount m k ((lookupCount m k).getD 0 + 1)

/-! ## Latest-version recomputation (RecalculateLatestVersions, lines 107-126) -/

/-- First pass of RecalculateLatestVersions, restricted to one id: the running
    map value latestVersions[id] after folding the given entries. -/
def findLatestAcc (id : String) (acc : Option String) : List NugetPackageEntry → Option String
  | [] => acc
  | p :: ps =>
    if p.id = id then
      match acc with
      | none => findLatestAcc id (some p.version) ps
      | some cur =>
        findLatestAcc id (some (if 0 < compareVersions p.version cur then p.version else cur)) ps
    else findLatestAcc id acc ps

/-- The latestVersions map entry for id after the first pass. -/
def latestVersionOf (pkgs : List NugetPackageEntry) (id : String) : String :=
  (findLatestAcc id none pkgs).getD ""

/-- Second pass of RecalculateLatestVersions on one entry. -/
def markLatest (pkgs : List NugetPackageEntry) (p : NugetPackageEntry) : NugetPackageEntry :=
  let isLatest := compareVersions p.version (latestVersionOf pkgs p.id) == 0
  { p with isLatestVersion := isLatest, isAbsoluteLatestVersion := isLatest }

/-- RecalculateLatestVersions (part_000 lines 107-126). -/
def RecalculateLatestVersions (pkgs : List NugetPackageEntry) : List NugetPackageEntry :=
  pkgs.map (markLatest pkgs)

/-! ## Catalog insert / remove -/

/-- The sorted insert of LoadPackage (lines 255-260): sort.Search returns, by
    its documented contract, the least index whose entry has Filename()
    strictly greater than the new one, and the append/copy shift inserts
    there; this linear recursion inserts at that same least index. -/
def insertByFilename (p : NugetPackageEntry) : List NugetPackageEntry → List NugetPackageEntry
  | [] => [p]
  | q :: qs => if strLt p.filename q.filename then p :: q :: qs else q :: insertByFilename p qs

/-- The removal loop of RemovePackage (lines 294-299): remove the first entry
    whose Filename() equals fn, then stop. -/
def removeByFilename (fn : String) : List NugetPackageEntry → List NugetPackageEntry
  | [] => []
  | p :: ps => if p.filename == fn then ps else p :: removeByFilename fn ps

/-! ## Payload extraction paths -/

/-- Model of path.Ext: the suffix of the last path element starting at its
    final dot, empty if there is none. -/
def pathExt (cs : List Char) : List Char :=
  let comp := cs.reverse.takeWhile (fun c => c != '/')
  let extRev := comp.takeWhile (fun c => c != '.')
  if extRev.length == comp.length then [] else '.' :: extRev.reverse

/-- zipFileIsDirectory (lines 395-397). -/
def zipFileIsDirectory (name : String) : Bool :=
  endsWithStr name "/" || (pathExt name.data).isEmpty

/-- The TrimPrefix loop: remove all leading content/ segments. -/
def stripContentRepeats : List Char → List Char
  | 'c' :: 'o' :: 'n' :: 't' :: 'e' :: 'n' :: 't' :: '/' :: rest => stripContentRepeats rest
  | cs => cs

/-- Split a path into its slash-separated elements (accumulator helper). -/
def splitOnSlashAux (acc : List Char) : List Char → List (List Char)
  | [] => [acc.reverse]
  | c :: cs =>
    if c == '/' then acc.reverse :: splitOnSlashAux [] cs
    else splitOnSlashAux (c :: acc) cs

/-- Split a path into its slash-separated elements. -/
def splitOnSlash (cs : List Char) : List (List Char) := splitOnSlashAux [] cs

/-- The element loop of path.Clean (invoked by filepath.Join) on the
    rootDir-relative paths this store builds: empty and "." elements are
    dropped, ".." pops the previous element when one is available; a ".."
    that cannot pop is kept, standing for a target that escapes the archive
    root (the model keeps rootDir abstract, so such escapes stay distinct
    keys instead of climbing into rootDir's own elements). -/
def cleanSegsAux : List (List Char) → List (List Char) → List (List Char)
  | acc, [] => acc.reverse
  | acc, s :: rest =>
    if s.isEmpty || s == ['.'] then cleanSegsAux acc rest
    else if s == ['.', '.'] then
      match acc with
      | [] => cleanSegsAux [s] rest
      | a :: as =>
        if a == ['.', '.'] then cleanSegsAux (s :: acc) rest
        else cleanSegsAux as rest
    else cleanSegsAux (s :: acc) rest

/-- Reassemble path elements with slashes. -/
def joinSegs : List (List Char) → List Char
  | [] => []
  | [s] => s
  | s :: rest => s ++ '/' :: joinSegs rest

/-- Model of the Clean step of filepath.Join on a slash path: split on '/',
    resolve empty, "." and ".." elements, rejoin. -/
def cleanPath (s : String) : String :=
  ⟨joinSegs (cleanSegsAux [] (splitOnSlash s.data))⟩

/-- A path element that path.Clean leaves in place. -/
def segOK (seg : List Char) : Bool :=
  !(seg.isEmpty || seg == ['.'] || seg == ['.', '.'])

/-- Every slash-element of the path is Clean-invariant, so filepath.Join
    degenerates to slash concatenation on it. -/
def pathSegsOK (s : String) : Bool := (splitOnSlash s.data).all segOK

/-- The payload-extraction loop shared by LoadPackage (lines 265-282) and
    StorePackage (lines 372-389): write every non-directory entry under
    content/ to filepath.Join(destDir, name with the repeated content/
    segments collapsed); Join cleans the joined path, so "." and ".."
    elements in the entry name are resolved.  The Go loop ranges over a map
    in unspecified order; the order only matters if two archive entries
    collapse to one target path, which does not occur in the inputs
    considered here. -/
def writeContentFiles (now destDir : String) : List (String × Bytes) → List DiskFile → List DiskFile
  | [], disk => disk
  | (fp, d) :: rest, disk =>
    if listStartsWith "content/".data fp.data && !(zipFileIsDirectory fp) then
      let rel : String := ⟨stripContentRepeats fp.data⟩
      writeContentFiles now destDir rest
        (writeFile disk (cleanPath (destDir ++ "/" ++ rel)) d now)
    else writeContentFiles now destDir rest disk

/-! ## LoadPackage / StorePackage / RemovePackage -/

/-- The mandated nupkg location for a directory name and version:
    rootDir/id/ver/id.ver.nupkg (shared by StorePackage, GetPackageFile and
    the startup scan). -/
def filePathOf (id ver : String) : String :=
  id ++ "/" ++ ver ++ "/" ++ id ++ "." ++ ver ++ ".nupkg"

/-- The package directory rootDir/lowercased-id/version of StorePackage. -/
def packageDirOf (m : NuSpec) : String := toLowerStr m.id ++ "/" ++ m.version

/-- The destination archive path StorePackage checks and writes. -/
def nupkgPathOf (m : NuSpec) : String := filePathOf (toLowerStr m.id) m.version

/-- LoadPackage (part_000 lines 215-288).  NewNugetPackageEntry is outside the
    snapshot; modelled from the spec (section 3): manifest fields are carried
    through unmodified, counters start at zero, timestamps come from the
    file's modification time.  filepath.Join is modelled as slash concatenation
    (the inputs used here are already clean paths). -/
def LoadPackage (R : ArchiveReader) (σ : StoreState) (fp : String) : Option String × StoreState :=
  match findFile σ.files fp with
  | none => (some "read error", σ)
  | some file =>
    match R.extract file.data with
    | none => (some "failed to extract nupkg", σ)
    | some (nsf, files) =>
      let p : NugetPackageEntry :=
        { id := nsf.id, version := nsf.version,
          published := file.mtime,
          isLatestVersion := false, isAbsoluteLatestVersion := false,
          versionDownloadCount := 0, downloadCount := 0,
          packageHash := R.hashHex file.data, packageSize := file.data.length,
          contentSrc := σ.baseURL ++ "nupkg/" ++ nsf.id ++ "/" ++ nsf.version,
          authors := nsf.authors, description := nsf.description, tags := nsf.tags }
      let pkgs := insertByFilename p σ.packages
      let contentDir := toLowerStr nsf.id ++ "/" ++ nsf.version ++ "/content"
      let disk := writeContentFiles σ.now contentDir files σ.files
      (none, { σ with packages := RecalculateLatestVersions pkgs, files := disk })

/-- StorePackage (part_000 lines 305-393).  The in-function nuspec scan and
    the two extractPackage calls all decode the same archive bytes, so they
    are all served by the single extract collaborator. -/
def StorePackage (R : ArchiveReader) (σ : StoreState) (pkg : Bytes) :
    (Bool × Option String) × StoreState :=
  match R.extract pkg with
  | none => ((false, some "nuspec file not found in package"), σ)
  | some (nsf, files) =>
    let id := toLowerStr nsf.id
    let version := nsf.version
    let packageDir := id ++ "/" ++ version
    let nupkgPath := filePathOf id version
    if fileExists σ.files nupkgPath then
      ((false, some ("package already exists: " ++ nupkgPath)), σ)
    else
      let σ1 : StoreState := { σ with files := writeFile σ.files nupkgPath pkg σ.now }
      match LoadPackage R σ1 nupkgPath with
      | (some e, σ2) => ((false, some ("failed to load package: " ++ e)), σ2)
      | (none, σ2) =>
        ((true, none), { σ2 with files := writeContentFiles σ2.now (packageDir ++ "/content") files σ2.files })

/-- RemovePackage (part_000 lines 290-303): drop the first catalog entry with
    the given filename, os.RemoveAll(rootDir/content/fn), recompute latest
    flags. -/
def RemovePackage (σ : StoreState) (fn : String) : StoreState :=
  let pkgs := removeByFilename fn σ.packages
  let dir := "content/" ++ fn
  let disk := σ.files.filter
    (fun f => !(f.path == dir || listStartsWith (dir ++ "/").data f.path.data))
  { σ with packages := RecalculateLatestVersions pkgs, files := disk }

/-! ## GetPackageFile / GetPackageEntry -/

/-- The update loop of GetPackageFile (lines 512-517): set the version
    download count of the first entry matching (EqualFold id, exact version),
    then stop. -/
def updateVersionCount (id ver : String) (n : Int) :
    List NugetPackageEntry → List NugetPackageEntry
  | [] => []
  | p :: ps =>
    if equalFold p.id id && p.version == ver then { p with versionDownloadCount := n } :: ps
    else p :: updateVersionCount id ver n ps

/-- GetPackageFile (part_000 lines 496-520). -/
def GetPackageFile (σ : StoreState) (id ver : String) :
    Option (Bytes × String) × StoreState :=
  let fname := filePathOf id ver
  match readFile σ.files fname with
  | none => (none, σ)
  | some content =>
    let key := id ++ "/" ++ ver
    let counts := bumpCount σ.downloadCounts key
    let pkgs := updateVersionCount id ver ((lookupCount counts key).getD 0) σ.packages
    (some (content, "application/octet-stream"),
     { σ with downloadCounts := counts, savedCounts := counts, packages := pkgs })

/-- The mutation of GetPackageEntry through the matched pointer: the match is
    the last entry satisfying (EqualFold id, exact version), so the update is
    applied to the first match of the reversed list. -/
def updateDownloadCountFirst (id ver : String) (n : Int) :
    List NugetPackageEntry → List NugetPackageEntry
  | [] => []
  | p :: ps =>
    if equalFold p.id id && p.version == ver then { p with downloadCount := n } :: ps
    else p :: updateDownloadCountFirst id ver n ps

/-- GetPackageEntry (part_000 lines 399-424): sum the version download counts
    over all entries with EqualFold-equal id, pick the last entry that also
    matches the version exactly, and store the sum in its downloadCount. -/
def GetPackageEntry (σ : StoreState) (id ver : String) :
    Option NugetPackageEntry × StoreState :=
  let total := (σ.packages.filter (fun p => equalFold p.id id)).foldl
    (fun acc p => acc + p.versionDownloadCount) 0
  match (σ.packages.filter (fun p => equalFold p.id id && p.version == ver)).getLast? with
  | none => (none, σ)
  | some p =>
    let pkgs := (updateDownloadCountFirst id ver total σ.packages.reverse).reverse
    (some { p with downloadCount := total }, { σ with packages := pkgs })

/-! ## The feed (GetPackageFeedEntries, part_000 lines 426-494) -/

/-- The downloadTotals map building loop (lines 431-437): keys absent from the
    counter table contribute nothing. -/
def feedTotalsAcc (counts : List (String × Int)) :
    List NugetPackageEntry → List (String × Int) → List (String × Int)
  | [], totals => totals
  | p :: ps, totals =>
    match lookupCount counts (p.id ++ "/" ++ p.version) with
    | some c => feedTotalsAcc counts ps (setCount totals p.id ((lookupCount totals p.id).getD 0 + c))
    | none => feedTotalsAcc counts ps totals

/-- The per-entry refresh of the loop at lines 440-454 (applied to every
    catalog entry before the id filter). -/
def feedProcess (counts totals : List (String × Int)) (p : NugetPackageEntry) :
    NugetPackageEntry :=
  { p with versionDownloadCount := (lookupCount counts (p.id ++ "/" ++ p.version)).getD 0,
           downloadCount := (lookupCount totals p.id).getD 0 }

/-- The sort.Slice comparator (lines 465-473): false whenever either published
    timestamp fails to parse, otherwise newest first. -/
def lessPub (a b : NugetPackageEntry) : Bool :=
  match parseRFC3339 a.published, parseRFC3339 b.published with
  | some ta, some tb => decide (tb < ta)
  | _, _ => false

/-- Insertion step of the sort model. -/
def insertPub (x : NugetPackageEntry) : List NugetPackageEntry → List NugetPackageEntry
  | [] => [x]
  | y :: ys => if lessPub y x then y :: insertPub x ys else x :: y :: ys

/-- Model of sort.Slice(packages, less): Go's sort.Slice is an unstable sort
    with an unspecified algorithm; it is modelled here as a stable insertion
    sort, which produces the unique stable less-ordered permutation whenever
    less is a strict weak order, and agrees with the insertion-sort pass Go
    uses on small slices. -/
def sortPub : List NugetPackageEntry → List NugetPackageEntry
  | [] => []
  | x :: xs => insertPub x (sortPub xs)

/-- The refreshed and id-filtered entry list of GetPackageFeedEntries. -/
def feedFiltered (σ : StoreState) (id : String) : List NugetPackageEntry :=
  let totals := feedTotalsAcc σ.downloadCounts σ.packages []
  (σ.packages.map (feedProcess σ.downloadCounts totals)).filter
    (fun p => id == "" || p.id == id)

/-- The sorted result set of GetPackageFeedEntries before pagination. -/
def feedSorted (σ : StoreState) (id : String) : List NugetPackageEntry :=
  sortPub (feedFiltered σ id)

/-- The startAfter scan (lines 476-484): first index whose id/version equals
    the cursor, plus one; 0 for an empty or unmatched cursor. -/
def cursorStart (sorted : List NugetPackageEntry) (startAfter : String) : Nat :=
  if startAfter == "" then 0
  else
    match sorted.findIdx? (fun p => p.id ++ "/" ++ p.version == startAfter) with
    | some i => i + 1
    | none => 0

/-- GetPackageFeedEntries (part_000 lines 426-494).  max is a Nat: every
    caller in this repository passes 100 (a negative max would make the Go
    slice expression panic).  The count refresh mutates the catalog entries
    in place through their pointers, hence the updated packages in the
    returned state; the sort permutes only the local slice. -/
def GetPackageFeedEntries (σ : StoreState) (id startAfter : String) (max : Nat) :
    (List NugetPackageEntry × Bool × Option String) × StoreState :=
  let sorted := feedSorted σ id
  let start := cursorStart sorted startAfter
  let endIdx := min (start + max) sorted.length
  let page := (sorted.drop start).take (endIdx - start)
  let processed := σ.packages.map
    (feedProcess σ.downloadCounts (feedTotalsAcc σ.downloadCounts σ.packages []))
  ((page, decide (endIdx < sorted.length), none), { σ with packages := processed })

/-! ## Access policy (GetAccessLevel, part_000 lines 541-571) -/

/-- The access tier; the constants accessDenied / accessReadOnly /
    accessReadWrite are declared outside this snapshot. -/
inductive Access where
  | denied
  | readOnly
  | readWrite
deriving DecidableEq

/-- The two static key lists of the configuration. -/
structure APIKeys where
  readOnly : List String
  readWrite : List String
deriving DecidableEq

/-- One of the matching loops of GetAccessLevel. -/
def keyIn (ks : List String) (key : String) : Bool :=
  match ks with
  | [] => false
  | k :: r => if k == key then true else keyIn r key

/-- GetAccessLevel (part_000 lines 541-571); the Bool records whether the
    unauthorized error was returned alongside the tier. -/
def GetAccessLevel (cfg : APIKeys) (key : String) : Access × Bool :=
  if cfg.readOnly.length == 0 && cfg.readWrite.length == 0 then (.readWrite, false)
  else if 0 < cfg.readOnly.length then
    if keyIn cfg.readWrite key then (.readWrite, false)
    else if keyIn cfg.readOnly key then (.readOnly, false)
    else (.denied, true)
  else if keyIn cfg.readWrite key then (.readWrite, false)
  else (.readOnly, false)

/-- The access policy exactly as claim C10 words it. -/
def accessPolicyClaimC10 (cfg : APIKeys) (key : String) : Access :=
  if cfg.readOnly = [] ∧ cfg.readWrite = [] then .readWrite
  else if cfg.readOnly ≠ [] then
    if key ∈ cfg.readWrite then .readWrite
    else if key ∈ cfg.readOnly then .readOnly
    else .denied
  else if key ∈ cfg.readWrite then .readWrite
  else .readOnly

/-! ## Startup scan (Init / RefeshPackages, part_000 lines 34-178) -/

/-- Ascending duplicate-free insert, building the sorted listing order of
    ioutil.ReadDir. -/
def sortedInsertStr (s : String) : List String → List String
  | [] => [s]
  | t :: ts =>
    if strLt s t then s :: t :: ts
    else if s == t then t :: ts
    else t :: sortedInsertStr s ts

def sortedDedup (l : List String) : List String := l.foldr sortedInsertStr []

/-- Split a path at its first slash; none for a root-level plain file. -/
def firstComp (cs : List Char) : Option (String × List Char) :=
  let comp := cs.takeWhile (fun c => c != '/')
  if comp.length == cs.length then none
  else some (⟨comp⟩, cs.drop (comp.length + 1))

/-- The first-level directories of the archive root, in ReadDir order: a name
    is a directory exactly when some stored file path extends it. -/
def level1Dirs (files : List DiskFile) : List String :=
  sortedDedup (files.filterMap (fun f => (firstComp f.path.data).map (fun x => x.1)))

/-- The second-level directories under d, in ReadDir order. -/
def level2Dirs (files : List DiskFile) (d : String) : List String :=
  sortedDedup (files.filterMap (fun f =>
    match firstComp f.path.data with
    | some (c, rest) => if c == d then (firstComp rest).map (fun x => x.1) else none
    | none => none))

/-- The version loop of RefeshPackages for one id directory: a missing nupkg
    file, or a LoadPackage error, breaks out of the loop for that id. -/
def loadVersions (R : ArchiveReader) (idName : String) :
    List String → StoreState → StoreState
  | [], σ => σ
  | v :: vs, σ =>
    let fp := filePathOf idName v
    if fileExists σ.files fp then
      match LoadPackage R σ fp with
      | (none, σ2) => loadVersions R idName vs σ2
      | (some _, σ2) => σ2
    else σ

/-- The id loop of RefeshPackages (the second-level listing happens when the
    id directory is visited). -/
def loadIDs (R : ArchiveReader) : List String → StoreState → StoreState
  | [], σ => σ
  | d :: ds, σ => loadIDs R ds (loadVersions R d (level2Dirs σ.files d) σ)

/-- The count synchronisation loop (lines 162-170 and again 60-68): absent
    keys reset the in-memory count to 0. -/
def syncDownloadCounts (σ : StoreState) : StoreState :=
  { σ with packages := σ.packages.map (fun p =>
      { p with versionDownloadCount :=
          (lookupCount σ.downloadCounts (p.id ++ "/" ++ p.version)).getD 0 }) }

/-- RefeshPackages (part_000 lines 129-178). -/
def RefeshPackages (R : ArchiveReader) (σ : StoreState) : StoreState :=
  let σ1 := loadIDs R (level1Dirs σ.files) σ
  let σ2 := syncDownloadCounts σ1
  { σ2 with packages := RecalculateLatestVersions σ2.packages }

/-- Init (part_000 lines 34-71) for a fresh process over an existing archive
    root: LoadDownloadCounts reads the persisted table back (the flat
    string-to-integer JSON table round-trips exactly, per spec section 4.3),
    RefeshPackages rescans the root, and the counts are synced once more. -/
def Init (R : ArchiveReader) (disk : List DiskFile) (saved : List (String × Int))
    (baseURL now : String) : StoreState :=
  let σ0 : StoreState :=
    { files := disk, packages := [], downloadCounts := saved, savedCounts := saved,
      baseURL := baseURL, now := now }
  syncDownloadCounts (RefeshPackages R σ0)

/-- A process restart: the archive root and the persisted counter table
    survive; everything else is rebuilt by Init. -/
def restart (R : ArchiveReader) (σ : StoreState) : StoreState :=
  Init R σ.files σ.savedCounts σ.baseURL σ.now

/-! ## The state produced by a successful StorePackage (for the proofs) -/

/-- The catalog entry LoadPackage builds for a freshly stored archive (it
    depends on the state only through the clock and the base URL). -/
def storedEntry (R : ArchiveReader) (now baseURL : String) (m : NuSpec) (pkg : Bytes) :
    NugetPackageEntry :=
  { id := m.id, version := m.version, published := now,
    isLatestVersion := false, isAbsoluteLatestVersion := false,
    versionDownloadCount := 0, downloadCount := 0,
    packageHash := R.hashHex pkg, packageSize := pkg.length,
    contentSrc := baseURL ++ "nupkg/" ++ m.id ++ "/" ++ m.version,
    authors := m.authors, description := m.description, tags := m.tags }

/-- The state after a successful StorePackage of an archive with manifest m
    and payload fls: the archive written, the entry inserted, latest flags
    recomputed, and the payload extracted twice (once by LoadPackage, once by
    StorePackage itself). -/
def storeSuccessState (R : ArchiveReader) (σ : StoreState) (m : NuSpec)
    (fls : List (String × Bytes)) (pkg : Bytes) : StoreState :=
  let σ1 : StoreState := { σ with files := writeFile σ.files (nupkgPathOf m) pkg σ.now }
  let p := storedEntry R σ.now σ.baseURL m pkg
  let σ2 : StoreState := { σ1 with
    packages := RecalculateLatestVersions (insertByFilename p σ1.packages),
    files := writeContentFiles σ1.now (toLowerStr m.id ++ "/" ++ m.version ++ "/content") fls σ1.files }
  { σ2 with files := writeContentFiles σ2.now (packageDirOf m ++ "/content") fls σ2.files }

/-! ## Derived notions used by the claims -/

/-- N successive GetPackageFile calls for the same id and version. -/
def fetchN (id ver : String) : Nat → StoreState → StoreState
  | 0, σ => σ
  | n + 1, σ => (GetPackageFile (fetchN id ver n σ) id ver).2

/-- Number of catalog entries holding exactly this id and version. -/
def countIdVer (pkgs : List NugetPackageEntry) (id ver : String) : Nat :=
  (pkgs.filter (fun p => p.id == id && p.version == ver)).length

/-- The catalog order invariant: non-decreasing Filename() (Go string order). -/
abbrev sortedByFilename (pkgs : List NugetPackageEntry) : Prop :=
  List.Pairwise (fun a b => strLt b.filename a.filename = false) pkgs

/-- An entry's version is numerically maximal for its id, per the Version
    Comparator. -/
def IsNumericMax (pkgs : List NugetPackageEntry) (p : NugetPackageEntry) : Prop :=
  ∀ q ∈ pkgs, q.id = p.id → 0 ≤ compareVersions p.version q.version

/-- The store/remove operations of claim C3. -/
inductive CatalogOp where
  | store (pkg : Bytes)
  | remove (fn : String)

def applyOp (R : ArchiveReader) (σ : StoreState) : CatalogOp → StoreState
  | .store pkg => (StorePackage R σ pkg).2
  | .remove fn => RemovePackage σ fn

def applyOps (R : ArchiveReader) : List CatalogOp → StoreState → StoreState
  | [], σ => σ
  | op :: ops, σ => applyOps R ops (applyOp R σ op)

/-! ## Concrete instances used by witnesses and counterexamples -/

/-- A concrete manifest for witness archives. -/
def testNuSpec : NuSpec :=
  { id := "pkg", version := "1.0", authors := "au", description := "de", tags := "tg" }

/-- A concrete archive reader recognising the byte string [7]. -/
def testReader : ArchiveReader :=
  { extract := fun b => if b == [7] then some (testNuSpec, [("content/readme.txt", [1, 2])]) else none,
    hashHex := fun _ => "hash" }

/-- A concrete manifest with a mixed-case id. -/
def fooNuSpec : NuSpec :=
  { id := "Foo", version := "1.0", authors := "a", description := "d", tags := "t" }

/-- A concrete archive reader recognising the byte string [9] as an archive
    whose manifest id is mixed-case. -/
def fooReader : ArchiveReader :=
  { extract := fun b => if b == [9] then some (fooNuSpec, []) else none,
    hashHex := fun _ => "h" }

/-- The empty store. -/
def emptyState : StoreState :=
  { files := [], packages := [], downloadCounts := [], savedCounts := [],
    baseURL := "http://srv/", now := "2020-01-01T00:00:00Z" }

/-- A bare catalog entry with the given id, version and published timestamp. -/
def mkEntry (i v pub : String) : NugetPackageEntry :=
  { id := i, version := v, published := pub, isLatestVersion := false,
    isAbsoluteLatestVersion := false, versionDownloadCount := 0, downloadCount := 0,
    packageHash := "", packageSize := 0, contentSrc := "", authors := "",
    description := "", tags := "" }

/-- A two-version catalog for the C1 witness. -/
def c1pkgs : List NugetPackageEntry := [mkEntry "a" "1.0" "", mkEntry "a" "2.0" ""]

/-- The marked maximal entry of the C1 witness catalog. -/
def c1top : NugetPackageEntry :=
  { mkEntry "a" "2.0" "" with isLatestVersion := true, isAbsoluteLatestVersion := true }

/-- A catalog of 250 versions of one id, all with the same (parseable)
    published timestamp, for the pagination scenario of claim C5. -/
def cat250 : StoreState :=
  { files := [], packages := (List.range 250).map (fun i => mkEntry "pkg" (Nat.repr i) "2020-01-01T00:00:00Z"),
    downloadCounts := [], savedCounts := [], baseURL := "", now := "" }

/-- Claim C8's reading of "sorted by published descending" as a decidable
    pairwise relation: whenever both timestamps parse, the later entry's
    instant is not after the earlier entry's. -/
def pubGE (a b : NugetPackageEntry) : Bool :=
  match parseRFC3339 a.published, parseRFC3339 b.published with
  | some ta, some tb => decide (tb ≤ ta)
  | _, _ => true

/-- A catalog mixing parseable and unparsable published timestamps, in an
    order the feed comparator cannot repair. -/
def mixedState : StoreState :=
  { files := [], packages :=
      [mkEntry "a" "1" "2020-01-01T00:00:00Z",
       mkEntry "a" "2" "garbage",
       mkEntry "a" "3" "2021-01-01T00:00:00Z"],
    downloadCounts := [], savedCounts := [], baseURL := "", now := "" }

/-- A catalog whose three published timestamps all parse. -/
def parseableState : StoreState :=
  { files := [], packages :=
      [mkEntry "a" "1" "2020-01-01T00:00:00Z",
       mkEntry "a" "2" "2022-01-01T00:00:00Z",
       mkEntry "a" "3" "2021-01-01T00:00:00Z"],
    downloadCounts := [], savedCounts := [], baseURL := "", now := "" }

/-- First feed page of the C5 scenario. -/
def c5page1 := GetPackageFeedEntries cat250 "pkg" "" 100

/-- Cursor built by the caller from the last entry of a page (spec 4.5). -/
def cursorOf (page : List NugetPackageEntry) : String :=
  match page.getLast? with
  | some p => p.id ++ "/" ++ p.version
  | none => ""

/-- Second feed page of the C5 scenario. -/
def c5page2 := GetPackageFeedEntries c5page1.2 "pkg" (cursorOf c5page1.1.1) 100

/-- Third feed page of the C5 scenario. -/
def c5page3 := GetPackageFeedEntries c5page2.2 "pkg" (cursorOf c5page2.1.1) 100

/-! # Proofs

    ## Order-theoretic facts about the version comparator -/

theorem cmpIntList_nil_left (ys : List Int) : cmpIntList [] ys = cmpZeros ys := rfl

theorem cmpIntList_nil_right : ∀ xs : List Int, cmpIntList xs [] = - cmpZeros xs := by
  intro xs
  induction xs with
  | nil => rfl
  | cons x xs ih =>
    simp only [cmpIntList, cmpZeros]
    split_ifs <;> omega

theorem cmpIntList_neg : ∀ a b : List Int, cmpIntList b a = - cmpIntList a b := by
  intro a
  induction a with
  | nil =>
    intro b
    rw [cmpIntList_nil_right, cmpIntList_nil_left]
  | cons x xs ih =>
    intro b
    cases b with
    | nil =>
      rw [cmpIntList_nil_left, cmpIntList_nil_right]
      omega
    | cons y ys =>
      have h := ih ys
      simp only [cmpIntList]
      split_ifs <;> omega

theorem cmpIntList_self (a : List Int) : cmpIntList a a = 0 := by
  have h := cmpIntList_neg a a
  omega

theorem cmpZeros_snoc_zero : ∀ ys : List Int, cmpZeros (ys ++ [0]) = cmpZeros ys := by
  intro ys
  induction ys with
  | nil => rfl
  | cons y ys ih =>
    simp only [List.cons_append, List.append_eq, cmpZeros]
    simp only [List.append_eq] at ih
    split_ifs <;> omega

theorem cmpIntList_snoc_zero_right : ∀ a b : List Int, cmpIntList a (b ++ [0]) = cmpIntList a b := by
  intro a
  induction a with
  | nil =>
    intro b
    rw [cmpIntList_nil_left, cmpIntList_nil_left, cmpZeros_snoc_zero]
  | cons x xs ih =>
    intro b
    cases b with
    | nil => rfl
    | cons y ys =>
      have h := ih ys
      simp only [List.cons_append, List.append_eq, cmpIntList]
      simp only [List.append_eq] at h
      split_ifs <;> omega

theorem cmpIntList_snoc_zero_left : ∀ a b : List Int, cmpIntList (a ++ [0]) b = cmpIntList a b := by
  intro a b
  have h1 := cmpIntList_neg b (a ++ [0])
  have h2 := cmpIntList_neg b a
  rw [cmpIntList_snoc_zero_right b a] at h1
  omega

theorem cmpIntList_rep_zero_right :
    ∀ (k : Nat) (a b : List Int), cmpIntList a (b ++ List.replicate k 0) = cmpIntList a b := by
  intro k
  induction k with
  | zero => simp
  | succ n ih =>
    intro a b
    rw [List.replicate_succ', ← List.append_assoc, cmpIntList_snoc_zero_right, ih]

theorem cmpIntList_rep_zero_left :
    ∀ (k : Nat) (a b : List Int), cmpIntList (a ++ List.replicate k 0) b = cmpIntList a b := by
  intro k a b
  have h1 := cmpIntList_neg b (a ++ List.replicate k 0)
  have h2 := cmpIntList_neg b a
  rw [cmpIntList_rep_zero_right k b a] at h1
  omega

theorem cmpIntList_padZeros (a b : List Int) (n : Nat) :
    cmpIntList (padZeros a n) (padZeros b n) = cmpIntList a b := by
  unfold padZeros
  rw [cmpIntList_rep_zero_right, cmpIntList_rep_zero_left]

theorem cmpIntList_eq_cmpSameLen :
    ∀ a b : List Int, a.length = b.length → cmpIntList a b = cmpSameLen a b := by
  intro a
  induction a with
  | nil =>
    intro b hb
    cases b with
    | nil => rfl
    | cons y ys => simp at hb
  | cons x xs ih =>
    intro b hb
    cases b with
    | nil => simp at hb
    | cons y ys =>
      simp only [List.length_cons, Nat.succ_inj] at hb
      simp only [cmpIntList, cmpSameLen, ih ys hb]

theorem padZeros_length (a : List Int) (n : Nat) (h : a.length ≤ n) :
    (padZeros a n).length = n := by
  simp [padZeros]
  omega

theorem cmpSameLen_trans :
    ∀ a b c : List Int, a.length = b.length → b.length = c.length →
      0 ≤ cmpSameLen a b → 0 ≤ cmpSameLen b c → 0 ≤ cmpSameLen a c := by
  intro a
  induction a with
  | nil =>
    intro b c hab hbc h1 h2
    cases b with
    | nil =>
      cases c with
      | nil => simp [cmpSameLen]
      | cons z zs => simp at hbc
    | cons y ys => simp at hab
  | cons x xs ih =>
    intro b c hab hbc h1 h2
    cases b with
    | nil => simp at hab
    | cons y ys =>
      cases c with
      | nil => simp at hbc
      | cons z zs =>
        simp only [List.length_cons, Nat.succ_inj] at hab hbc
        simp only [cmpSameLen] at h1 h2 ⊢
        by_cases hxy : x < y
        · rw [if_pos hxy] at h1
          omega
        · by_cases hyz : y < z
          · rw [if_pos hyz] at h2
            omega
          · have hxz : ¬ x < z := by omega
            rw [if_neg hxy] at h1
            rw [if_neg hyz] at h2
            rw [if_neg hxz]
            by_cases hyx : y < x
            · have hzx : z < x := by omega
              rw [if_pos hzx]
              omega
            · by_cases hzy : z < y
              · have hzx : z < x := by omega
                rw [if_pos hzx]
                omega
              · have hzx : ¬ z < x := by omega
                rw [if_neg hyx] at h1
                rw [if_neg hzy] at h2
                rw [if_neg hzx]
                exact ih ys zs hab hbc h1 h2

theorem cmpIntList_trans (a b c : List Int)
    (h1 : 0 ≤ cmpIntList a b) (h2 : 0 ≤ cmpIntList b c) : 0 ≤ cmpIntList a c := by
  set n := max (max a.length b.length) c.length with hn
  have ha : a.length ≤ n := by omega
  have hb : b.length ≤ n := by omega
  have hc : c.length ≤ n := by omega
  have lab : (padZeros a n).length = (padZeros b n).length := by
    rw [padZeros_length a n ha, padZeros_length b n hb]
  have lbc : (padZeros b n).length = (padZeros c n).length := by
    rw [padZeros_length b n hb, padZeros_length c n hc]
  have lac : (padZeros a n).length = (padZeros c n).length := by
    rw [padZeros_length a n ha, padZeros_length c n hc]
  have h1' : 0 ≤ cmpSameLen (padZeros a n) (padZeros b n) := by
    rw [← cmpIntList_eq_cmpSameLen _ _ lab, cmpIntList_padZeros]
    exact h1
  have h2' : 0 ≤ cmpSameLen (padZeros b n) (padZeros c n) := by
    rw [← cmpIntList_eq_cmpSameLen _ _ lbc, cmpIntList_padZeros]
    exact h2
  have h3 := cmpSameLen_trans (padZeros a n) (padZeros b n) (padZeros c n) lab lbc h1' h2'
  rw [← cmpIntList_eq_cmpSameLen _ _ lac, cmpIntList_padZeros] at h3
  exact h3

theorem compareVersions_self (v : String) : compareVersions v v = 0 :=
  cmpIntList_self _

theorem compareVersions_neg (v w : String) :
    compareVersions w v = - compareVersions v w :=
  cmpIntList_neg _ _

theorem compareVersions_trans (u v w : String)
    (h1 : 0 ≤ compareVersions u v) (h2 : 0 ≤ compareVersions v w) :
    0 ≤ compareVersions u w :=
  cmpIntList_trans _ _ _ h1 h2

/-! ## Claim C2: the version comparator -/

/-- C2 counterexample: the claim describes compareVersions as parsing each
    component as a non-negative integer with unparsable components treated as
    0, under which "0" and "-1" would compare equal (both reduce to component
    0); but Sscanf %d parses "-1" as the negative integer -1, so the code
    returns 1.  The claim's description therefore disagrees with
    compareVersions at the input pair ("0", "-1"). -/
theorem C2_counterexample :
    compareVersions "0" "-1" = 1 ∧ compareVersionsClaimC2 "0" "-1" = 0 ∧
      compareVersions "0" "-1" ≠ compareVersionsClaimC2 "0" "-1" := by
  refine ⟨by decide, by decide, by decide⟩

/-- C2 (amended): compareVersions splits each version string on '.', parses
    each component exactly as Go's Sscanf %d verb does (fmt whitespace
    skipped, a newline aborting the scan, then an optional sign and a
    non-empty decimal digit run; a failed scan or an int64 range error leaves
    the component 0), pads the shorter component sequence with zeros, and
    compares component-wise left to right returning at the first difference;
    in particular compareVersions("1.2.0","1.2") = 0,
    compareVersions("1.10.0","1.9.0") = 1 and compareVersions("2.0","1.9.9") = 1. -/
theorem C2_amended :
    (∀ v1 v2 : String, compareVersions v1 v2 = compareVersionsAmendedC2 v1 v2) ∧
      compareVersions "1.2.0" "1.2" = 0 ∧
      compareVersions "1.10.0" "1.9.0" = 1 ∧
      compareVersions "2.0" "1.9.9" = 1 := by
  refine ⟨fun v1 v2 => ?_, by decide, by decide, by decide⟩
  unfold compareVersions compareVersionsAmendedC2
  set a := parseVersionNums v1
  set b := parseVersionNums v2
  set n := max a.length b.length with hn
  have lab : (padZeros a n).length = (padZeros b n).length := by
    rw [padZeros_length a n (le_max_left _ _), padZeros_length b n (le_max_right _ _)]
  rw [← cmpIntList_eq_cmpSameLen _ _ lab, cmpIntList_padZeros]


/-! ## Claim C1: RecalculateLatestVersions -/

theorem findLatestAcc_some_of_acc (id : String) :
    ∀ (l : List NugetPackageEntry) (c : String),
      ∃ m, findLatestAcc id (some c) l = some m := by
  intro l
  induction l with
  | nil => intro c; exact ⟨c, rfl⟩
  | cons p ps ih =>
    intro c
    simp only [findLatestAcc]
    by_cases hid : p.id = id
    · rw [if_pos hid]
      exact ih _
    · rw [if_neg hid]
      exact ih _

theorem findLatestAcc_some_of_mem (id : String) :
    ∀ (l : List NugetPackageEntry) (acc : Option String) (q : NugetPackageEntry),
      q ∈ l → q.id = id → ∃ m, findLatestAcc id acc l = some m := by
  intro l
  induction l with
  | nil => intro acc q hq; exact absurd hq (List.not_mem_nil q)
  | cons p ps ih =>
    intro acc q hq hqid
    simp only [findLatestAcc]
    by_cases hid : p.id = id
    · rw [if_pos hid]
      cases acc with
      | none => exact findLatestAcc_some_of_acc id ps _
      | some c => exact findLatestAcc_some_of_acc id ps _
    · rw [if_neg hid]
      rcases List.mem_cons.1 hq with h | h
      · subst h; exact absurd hqid hid
      · exact ih acc q h hqid

theorem findLatestAcc_dominates (id : String) :
    ∀ (l : List NugetPackageEntry) (acc : Option String) (m : String),
      findLatestAcc id acc l = some m →
      (∀ q ∈ l, q.id = id → 0 ≤ compareVersions m q.version) ∧
      (∀ c, acc = some c → 0 ≤ compareVersions m c) := by
  intro l
  induction l with
  | nil =>
    intro acc m h
    simp only [findLatestAcc] at h
    refine ⟨fun q hq => absurd hq (List.not_mem_nil q), fun c hc => ?_⟩
    rw [hc] at h
    have hcm : m = c := by
      injection h with h2
      exact h2.symm
    rw [hcm]
    have := compareVersions_self c
    omega
  | cons p ps ih =>
    intro acc m h
    simp only [findLatestAcc] at h
    by_cases hid : p.id = id
    · rw [if_pos hid] at h
      cases acc with
      | none =>
        obtain ⟨hmem, hacc⟩ := ih _ _ h
        refine ⟨fun q hq hqid => ?_, fun c hc => by cases hc⟩
        rcases List.mem_cons.1 hq with hh | hh
        · rw [hh]
          exact hacc _ rfl
        · exact hmem q hh hqid
      | some c =>
        obtain ⟨hmem, hacc⟩ := ih _ _ h
        have hnew := hacc _ rfl
        by_cases hcmp : 0 < compareVersions p.version c
        · rw [if_pos hcmp] at hnew
          refine ⟨fun q hq hqid => ?_, fun d hd => ?_⟩
          · rcases List.mem_cons.1 hq with hh | hh
            · rw [hh]
              exact hnew
            · exact hmem q hh hqid
          · have hdc : d = c := by
              injection hd with h2
              exact h2.symm
            rw [hdc]
            have hpc : 0 ≤ compareVersions p.version c := by omega
            exact compareVersions_trans _ _ _ hnew hpc
        · rw [if_neg hcmp] at hnew
          refine ⟨fun q hq hqid => ?_, fun d hd => ?_⟩
          · rcases List.mem_cons.1 hq with hh | hh
            · rw [hh]
              have hflip := compareVersions_neg p.version c
              have hcp : 0 ≤ compareVersions c p.version := by omega
              exact compareVersions_trans _ _ _ hnew hcp
            · exact hmem q hh hqid
          · have hdc : d = c := by
              injection hd with h2
              exact h2.symm
            rw [hdc]
            exact hnew
    · rw [if_neg hid] at h
      obtain ⟨hmem, hacc⟩ := ih _ _ h
      refine ⟨fun q hq hqid => ?_, hacc⟩
      rcases List.mem_cons.1 hq with hh | hh
      · rw [hh] at hqid
        exact absurd hqid hid
      · exact hmem q hh hqid

theorem findLatestAcc_attained (id : String) :
    ∀ (l : List NugetPackageEntry) (acc : Option String) (m : String),
      findLatestAcc id acc l = some m →
      acc = some m ∨ ∃ q ∈ l, q.id = id ∧ q.version = m := by
  intro l
  induction l with
  | nil =>
    intro acc m h
    simp only [findLatestAcc] at h
    exact Or.inl h
  | cons p ps ih =>
    intro acc m h
    simp only [findLatestAcc] at h
    by_cases hid : p.id = id
    · rw [if_pos hid] at h
      cases acc with
      | none =>
        rcases ih _ _ h with hacc | ⟨q, hq, hqid, hqv⟩
        · cases hacc
          exact Or.inr ⟨p, List.mem_cons_self p ps, hid, rfl⟩
        · exact Or.inr ⟨q, List.mem_cons_of_mem p hq, hqid, hqv⟩
      | some c =>
        rcases ih _ _ h with hacc | ⟨q, hq, hqid, hqv⟩
        · by_cases hcmp : 0 < compareVersions p.version c
          · rw [if_pos hcmp] at hacc
            cases hacc
            exact Or.inr ⟨p, List.mem_cons_self p ps, hid, rfl⟩
          · rw [if_neg hcmp] at hacc
            exact Or.inl hacc
        · exact Or.inr ⟨q, List.mem_cons_of_mem p hq, hqid, hqv⟩
    · rw [if_neg hid] at h
      rcases ih _ _ h with hacc | ⟨q, hq, hqid, hqv⟩
      · exact Or.inl hacc
      · exact Or.inr ⟨q, List.mem_cons_of_mem p hq, hqid, hqv⟩

theorem markLatest_id (pkgs : List NugetPackageEntry) (p : NugetPackageEntry) :
    (markLatest pkgs p).id = p.id := rfl

theorem markLatest_version (pkgs : List NugetPackageEntry) (p : NugetPackageEntry) :
    (markLatest pkgs p).version = p.version := rfl

/-- C1: for every catalog state and every entry of the catalog produced by
    RecalculateLatestVersions, isLatestVersion is true exactly when the
    entry's version is numerically maximal (per the Version Comparator) among
    the entries of its id, so all numerically tied maxima are marked latest
    and every other entry is not, and isAbsoluteLatestVersion always equals
    isLatestVersion. -/
theorem C1_recalc_latest (pkgs : List NugetPackageEntry) (e : NugetPackageEntry)
    (he : e ∈ RecalculateLatestVersions pkgs) :
    (e.isLatestVersion = true ↔ IsNumericMax (RecalculateLatestVersions pkgs) e) ∧
    e.isAbsoluteLatestVersion = e.isLatestVersion := by
  obtain ⟨p, hp, rfl⟩ := List.mem_map.1 he
  obtain ⟨mv, hmv⟩ := findLatestAcc_some_of_mem p.id pkgs none p hp rfl
  have hlat : latestVersionOf pkgs p.id = mv := by
    unfold latestVersionOf
    rw [hmv]
    rfl
  obtain ⟨hdom, -⟩ := findLatestAcc_dominates p.id pkgs none mv hmv
  have hatt : ∃ q ∈ pkgs, q.id = p.id ∧ q.version = mv := by
    rcases findLatestAcc_attained p.id pkgs none mv hmv with hc | hh
    · cases hc
    · exact hh
  constructor
  · constructor
    · intro hflag q hq hqid
      have hq' := List.mem_map.1 hq
      obtain ⟨r, hr, hrq⟩ := hq'
      have hflag' : compareVersions p.version mv = 0 := by
        have : (compareVersions p.version (latestVersionOf pkgs p.id) == 0) = true := hflag
        rw [hlat] at this
        exact beq_iff_eq.1 this
      have hone : 0 ≤ compareVersions p.version mv := by omega
      have hrid : r.id = p.id := by
        rw [← hrq] at hqid
        exact hqid
      have hdomr : 0 ≤ compareVersions mv r.version := hdom r hr hrid
      have := compareVersions_trans _ _ _ hone hdomr
      rw [← hrq]
      exact this
    · intro hmax
      obtain ⟨q0, hq0, hq0id, hq0v⟩ := hatt
      have hq0' : markLatest pkgs q0 ∈ RecalculateLatestVersions pkgs :=
        List.mem_map_of_mem (markLatest pkgs) hq0
      have h1 : 0 ≤ compareVersions (markLatest pkgs p).version (markLatest pkgs q0).version :=
        hmax _ hq0' (by rw [markLatest_id, markLatest_id, hq0id])
      rw [markLatest_version, markLatest_version, hq0v] at h1
      have h2 : 0 ≤ compareVersions mv p.version := hdom p hp rfl
      have hflip := compareVersions_neg p.version mv
      have hzero : compareVersions p.version mv = 0 := by omega
      show (compareVersions p.version (latestVersionOf pkgs p.id) == 0) = true
      rw [hlat, hzero]
      rfl
  · rfl

/-- C1 witness: in the catalog [a 1.0, a 2.0] the recalculated 2.0 entry is a
    member, its flag is true exactly because it is numerically maximal, and
    both flags agree. -/
theorem C1_witness :
    c1top ∈ RecalculateLatestVersions c1pkgs ∧
    ((c1top.isLatestVersion = true ↔ IsNumericMax (RecalculateLatestVersions c1pkgs) c1top) ∧
     c1top.isAbsoluteLatestVersion = c1top.isLatestVersion) :=
  ⟨by decide, C1_recalc_latest c1pkgs c1top (by decide)⟩


/-! ## Claim C10: GetAccessLevel -/

theorem keyIn_eq (ks : List String) (key : String) :
    keyIn ks key = decide (key ∈ ks) := by
  induction ks with
  | nil => simp [keyIn]
  | cons k r ih =>
    simp only [keyIn, ih]
    by_cases hk : k == key
    · have : k = key := beq_iff_eq.1 hk
      subst this
      simp [hk]
    · have hne : ¬ k = key := fun he => hk (beq_iff_eq.2 he)
      rw [if_neg ?_]
      · simp [List.mem_cons]
        intro he
        exact absurd he.symm hne
      · exact fun he => hk he
    
/-- C10: GetAccessLevel resolves exactly as the claim's policy table: no keys
    configured gives ReadWrite; with read-only keys configured a read-write
    match gives ReadWrite, else a read-only match gives ReadOnly, else Denied;
    with only read-write keys configured a read-write match gives ReadWrite
    and anything else (including no key) gives ReadOnly. -/
theorem C10_access_policy (cfg : APIKeys) (key : String) :
    (GetAccessLevel cfg key).1 = accessPolicyClaimC10 cfg key := by
  unfold GetAccessLevel accessPolicyClaimC10
  by_cases hro : cfg.readOnly = []
  · by_cases hrw : cfg.readWrite = []
    · simp [hro, hrw]
    · have hlen : cfg.readWrite.length ≠ 0 := by
        simpa [List.length_eq_zero] using hrw
      by_cases hk : key ∈ cfg.readWrite
      · simp [hro, hrw, hk, keyIn_eq, hlen]
      · simp [hro, hrw, hk, keyIn_eq, hlen]
  · have hlen : cfg.readOnly.length ≠ 0 := by
      simpa [List.length_eq_zero] using hro
    have hpos : 0 < cfg.readOnly.length := Nat.pos_of_ne_zero hlen
    by_cases hk : key ∈ cfg.readWrite
    · simp [hro, hk, keyIn_eq, hlen, hpos]
    · by_cases hk2 : key ∈ cfg.readOnly
      · simp [hro, hk, hk2, keyIn_eq, hlen, hpos]
      · simp [hro, hk, hk2, keyIn_eq, hlen, hpos]

/-! ## Claim C3: the catalog stays sorted by filename -/

theorem lexLt_nil_false (a : List Char) : lexLt a [] = false := by
  cases a <;> rfl

theorem lexLt_neg_trans :
    ∀ a b c : List Char, lexLt a b = false → lexLt b c = false → lexLt a c = false := by
  intro a
  induction a with
  | nil =>
    intro b c h1 h2
    cases b with
    | nil => exact h2
    | cons y ys => simp [lexLt] at h1
  | cons x xs ih =>
    intro b c h1 h2
    cases c with
    | nil => exact lexLt_nil_false _
    | cons z zs =>
      cases b with
      | nil => simp [lexLt] at h2
      | cons y ys =>
        simp only [lexLt] at h1 h2 ⊢
        by_cases hxy : x < y
        · rw [if_pos hxy] at h1
          cases h1
        · rw [if_neg hxy] at h1
          by_cases hyz : y < z
          · rw [if_pos hyz] at h2
            cases h2
          · rw [if_neg hyz] at h2
            have hyx : y ≤ x := not_lt.1 hxy
            have hzy : z ≤ y := not_lt.1 hyz
            have hxz : ¬ x < z := by
              intro hlt
              exact absurd (lt_of_lt_of_le (lt_of_lt_of_le hlt hzy) hyx) (lt_irrefl x)
            rw [if_neg hxz]
            by_cases hzx : z < x
            · rw [if_pos hzx]
            · rw [if_neg hzx]
              have hxzeq : x = z := le_antisymm (not_lt.1 hzx) (not_lt.1 hxz)
              have hxyeq : x = y := le_antisymm (le_trans (le_of_eq hxzeq) hzy) hyx
              have hnyx : ¬ y < x := fun hl => by
                rw [hxyeq] at hl
                exact lt_irrefl y hl
              rw [if_neg hnyx] at h1
              have hnzy : ¬ z < y := fun hl => by
                rw [← hxzeq] at hl
                exact hxy hl
              rw [if_neg hnzy] at h2
              exact ih ys zs h1 h2

theorem lexLt_asymm : ∀ a b : List Char, lexLt a b = true → lexLt b a = false := by
  intro a
  induction a with
  | nil =>
    intro b h
    cases b with
    | nil => cases h
    | cons y ys => rfl
  | cons x xs ih =>
    intro b h
    cases b with
    | nil => cases h
    | cons y ys =>
      simp only [lexLt] at h ⊢
      by_cases hxy : x < y
      · have hnyx : ¬ y < x := lt_asymm hxy
        rw [if_neg hnyx, if_pos hxy]
      · rw [if_neg hxy] at h
        by_cases hyx : y < x
        · rw [if_pos hyx] at h
          cases h
        · rw [if_neg hyx] at h
          rw [if_neg hyx, if_neg hxy]
          exact ih ys h

theorem strLt_neg_trans (a b c : String) (h1 : strLt a b = false) (h2 : strLt b c = false) :
    strLt a c = false :=
  lexLt_neg_trans _ _ _ h1 h2

theorem strLt_asymm (a b : String) (h : strLt a b = true) : strLt b a = false :=
  lexLt_asymm _ _ h

theorem mem_insertByFilename (p x : NugetPackageEntry) :
    ∀ l : List NugetPackageEntry, x ∈ insertByFilename p l → x = p ∨ x ∈ l := by
  intro l
  induction l with
  | nil =>
    intro hx
    simp only [insertByFilename] at hx
    rcases List.mem_cons.1 hx with hh | hh
    · exact Or.inl hh
    · exact Or.inr hh
  | cons q qs ih =>
    intro hx
    simp only [insertByFilename] at hx
    by_cases hc : strLt p.filename q.filename
    · rw [if_pos hc] at hx
      rcases List.mem_cons.1 hx with hh | hh
      · exact Or.inl hh
      · exact Or.inr hh
    · rw [if_neg hc] at hx
      rcases List.mem_cons.1 hx with hh | hh
      · exact Or.inr (by rw [hh]; exact List.mem_cons_self q qs)
      · rcases ih hh with h3 | h3
        · exact Or.inl h3
        · exact Or.inr (List.mem_cons_of_mem q h3)

theorem sortedByFilename_insert (p : NugetPackageEntry) :
    ∀ l : List NugetPackageEntry, sortedByFilename l → sortedByFilename (insertByFilename p l) := by
  intro l
  induction l with
  | nil =>
    intro h
    simp [insertByFilename, sortedByFilename]
  | cons q qs ih =>
    intro h
    obtain ⟨hq, hqs⟩ := List.pairwise_cons.1 h
    simp only [insertByFilename]
    by_cases hc : strLt p.filename q.filename
    · rw [if_pos hc]
      refine List.pairwise_cons.2 ⟨?_, h⟩
      intro x hx
      rcases List.mem_cons.1 hx with hh | hh
      · rw [hh]
        exact strLt_asymm _ _ hc
      · exact strLt_neg_trans _ _ _ (hq x hh) (strLt_asymm _ _ hc)
    · rw [if_neg hc]
      have hcf : strLt p.filename q.filename = false := by
        revert hc
        cases strLt p.filename q.filename <;> simp
      refine List.pairwise_cons.2 ⟨?_, ih hqs⟩
      intro x hx
      rcases mem_insertByFilename p x qs hx with hh | hh
      · rw [hh]
        exact hcf
      · exact hq x hh

theorem removeByFilename_sublist (fn : String) :
    ∀ l : List NugetPackageEntry, (removeByFilename fn l).Sublist l := by
  intro l
  induction l with
  | nil => simp [removeByFilename]
  | cons p ps ih =>
    simp only [removeByFilename]
    by_cases hc : p.filename == fn
    · rw [if_pos hc]
      exact List.sublist_cons_self p ps
    · rw [if_neg hc]
      exact ih.cons₂ p

theorem markLatest_filename (pkgs : List NugetPackageEntry) (p : NugetPackageEntry) :
    (markLatest pkgs p).filename = p.filename := rfl

theorem sortedByFilename_recalc (pkgs : List NugetPackageEntry)
    (h : sortedByFilename pkgs) : sortedByFilename (RecalculateLatestVersions pkgs) := by
  unfold sortedByFilename RecalculateLatestVersions
  rw [List.pairwise_map]
  exact h

theorem LoadPackage_sorted (R : ArchiveReader) (σ : StoreState) (fp : String)
    (h : sortedByFilename σ.packages) :
    sortedByFilename ((LoadPackage R σ fp).2.packages) := by
  unfold LoadPackage
  split
  · exact h
  · split
    · exact h
    · exact sortedByFilename_recalc _ (sortedByFilename_insert _ _ h)

theorem StorePackage_sorted (R : ArchiveReader) (σ : StoreState) (pkg : Bytes)
    (h : sortedByFilename σ.packages) :
    sortedByFilename ((StorePackage R σ pkg).2.packages) := by
  unfold StorePackage
  split
  · exact h
  · dsimp only
    split
    · exact h
    · split
      · next e σ2 heq =>
        have h2 := congrArg Prod.snd heq
        dsimp only at h2 ⊢
        rw [← h2]
        exact LoadPackage_sorted R _ _ h
      · next σ2 heq =>
        have h2 := congrArg Prod.snd heq
        dsimp only at h2 ⊢
        rw [← h2]
        exact LoadPackage_sorted R _ _ h

theorem RemovePackage_sorted (σ : StoreState) (fn : String)
    (h : sortedByFilename σ.packages) :
    sortedByFilename ((RemovePackage σ fn).packages) :=
  sortedByFilename_recalc _ (List.Pairwise.sublist (removeByFilename_sublist fn σ.packages) h)

/-- C3: for every sequence of StorePackage and RemovePackage operations
    applied to a catalog sorted by filename, the catalog remains totally
    ordered (non-decreasing) by the lexicographic filename string after every
    operation of the sequence. -/
theorem C3_catalog_sorted (R : ArchiveReader) (ops : List CatalogOp) (σ : StoreState)
    (h : sortedByFilename σ.packages) :
    sortedByFilename ((applyOps R ops σ).packages) := by
  induction ops generalizing σ with
  | nil => exact h
  | cons op ops ih =>
    cases op with
    | store pkg => exact ih _ (StorePackage_sorted R σ pkg h)
    | remove fn => exact ih _ (RemovePackage_sorted σ fn h)

/-- C3 witness: a store-store-remove sequence from the empty catalog keeps it
    sorted at the end (and the empty start is sorted). -/
theorem C3_witness :
    sortedByFilename emptyState.packages ∧
    sortedByFilename ((applyOps testReader
      [CatalogOp.store [7], CatalogOp.store [9], CatalogOp.remove "pkg.1.0"]
      emptyState).packages) :=
  ⟨by decide, C3_catalog_sorted testReader _ emptyState (by decide)⟩


/-! ## Claim C5: feed pagination -/

theorem GetPackageFeedEntries_page (σ : StoreState) (id startAfter : String) (max : Nat) :
    (GetPackageFeedEntries σ id startAfter max).1.1 =
      ((feedSorted σ id).drop (cursorStart (feedSorted σ id) startAfter)).take
        (min (cursorStart (feedSorted σ id) startAfter + max) (feedSorted σ id).length
          - cursorStart (feedSorted σ id) startAfter) := rfl

theorem GetPackageFeedEntries_hasMore (σ : StoreState) (id startAfter : String) (max : Nat) :
    (GetPackageFeedEntries σ id startAfter max).1.2.1 =
      decide (min (cursorStart (feedSorted σ id) startAfter + max) (feedSorted σ id).length
        < (feedSorted σ id).length) := rfl

theorem take_min_sub (l : List NugetPackageEntry) (start max : Nat) :
    (l.drop start).take (min (start + max) l.length - start) = (l.drop start).take max := by
  have hlen : (l.drop start).length = l.length - start := List.length_drop start l
  by_cases h : start + max ≤ l.length
  · have hmin : min (start + max) l.length = start + max := by omega
    rw [hmin]
    have : start + max - start = max := by omega
    rw [this]
  · have hmin : min (start + max) l.length = l.length := by omega
    rw [hmin]
    rw [List.take_of_length_le (by omega), List.take_of_length_le (by omega)]

set_option maxRecDepth 100000 in
/-- C5: in general a GetPackageFeedEntries page is the next at-most-max
    entries of the sorted filtered catalog after the cursor position, and
    hasMore is true exactly when entries remain beyond the page; concretely,
    paging 250 entries of one id with max = 100 through three successive
    calls, each cursor taken from the last entry of the previous page, yields
    pages of 100, 100 and 50 entries with hasMore true, true and false. -/
theorem C5_pagination :
    (∀ (σ : StoreState) (id startAfter : String) (max : Nat),
      (GetPackageFeedEntries σ id startAfter max).1.1 =
        ((feedSorted σ id).drop (cursorStart (feedSorted σ id) startAfter)).take max ∧
      (GetPackageFeedEntries σ id startAfter max).1.1.length ≤ max ∧
      ((GetPackageFeedEntries σ id startAfter max).1.2.1 = true ↔
        (feedSorted σ id).drop (cursorStart (feedSorted σ id) startAfter +
          (GetPackageFeedEntries σ id startAfter max).1.1.length) ≠ [])) ∧
    (c5page1.1.1.length = 100 ∧ c5page1.1.2.1 = true ∧
     c5page2.1.1.length = 100 ∧ c5page2.1.2.1 = true ∧
     c5page3.1.1.length = 50 ∧ c5page3.1.2.1 = false) := by
  constructor
  · intro σ id startAfter max
    have hpage : (GetPackageFeedEntries σ id startAfter max).1.1 =
        ((feedSorted σ id).drop (cursorStart (feedSorted σ id) startAfter)).take max := by
      rw [GetPackageFeedEntries_page, take_min_sub]
    refine ⟨hpage, ?_, ?_⟩
    · rw [hpage, List.length_take]
      omega
    · rw [GetPackageFeedEntries_hasMore, hpage]
      have hlen : ((feedSorted σ id).drop (cursorStart (feedSorted σ id) startAfter)).length
          = (feedSorted σ id).length - cursorStart (feedSorted σ id) startAfter :=
        List.length_drop _ _
      rw [List.length_take]
      rw [decide_eq_true_iff]
      rw [ne_eq, List.drop_eq_nil_iff]
      omega
  · decide


/-! ## Claim C8: feed ordering by published timestamp -/

theorem mem_insertPub (x p : NugetPackageEntry) :
    ∀ l, x ∈ insertPub p l → x = p ∨ x ∈ l := by
  intro l
  induction l with
  | nil =>
    intro hx
    rcases List.mem_cons.1 hx with hh | hh
    · exact Or.inl hh
    · cases hh
  | cons y ys ih =>
    intro hx
    simp only [insertPub] at hx
    by_cases hc : lessPub y p
    · rw [if_pos hc] at hx
      rcases List.mem_cons.1 hx with hh | hh
      · exact Or.inr (by rw [hh]; exact List.mem_cons_self y ys)
      · rcases ih hh with h3 | h3
        · exact Or.inl h3
        · exact Or.inr (List.mem_cons_of_mem y h3)
    · rw [if_neg hc] at hx
      rcases List.mem_cons.1 hx with hh | hh
      · exact Or.inl hh
      · exact Or.inr hh

theorem pairwise_insertPub (p : NugetPackageEntry)
    (hp : (parseRFC3339 p.published).isSome = true) :
    ∀ l, (∀ y ∈ l, (parseRFC3339 y.published).isSome = true) →
      List.Pairwise (fun a b => pubGE a b = true) l →
      List.Pairwise (fun a b => pubGE a b = true) (insertPub p l) := by
  obtain ⟨tp, htp⟩ := Option.isSome_iff_exists.1 hp
  intro l
  induction l with
  | nil =>
    intro _ _
    simp [insertPub]
  | cons y ys ih =>
    intro hall h
    obtain ⟨ty, hty⟩ := Option.isSome_iff_exists.1 (hall y (List.mem_cons_self y ys))
    obtain ⟨hyrel, hys⟩ := List.pairwise_cons.1 h
    simp only [insertPub]
    by_cases hc : lessPub y p
    · rw [if_pos hc]
      have hlt : tp < ty := by
        have : lessPub y p = true := hc
        rw [lessPub, hty, htp] at this
        exact of_decide_eq_true this
      refine List.pairwise_cons.2
        ⟨?_, ih (fun z hz => hall z (List.mem_cons_of_mem y hz)) hys⟩
      intro z hz
      rcases mem_insertPub z p ys hz with hh | hh
      · rw [hh, pubGE, hty, htp]
        exact decide_eq_true (le_of_lt hlt)
      · exact hyrel z hh
    · rw [if_neg hc]
      have hle : ty ≤ tp := by
        have : lessPub y p = false := by
          revert hc
          cases lessPub y p <;> simp
        rw [lessPub, hty, htp] at this
        have := of_decide_eq_false this
        omega
      refine List.pairwise_cons.2 ⟨?_, h⟩
      intro z hz
      rcases List.mem_cons.1 hz with hh | hh
      · rw [hh, pubGE, htp, hty]
        exact decide_eq_true hle
      · obtain ⟨tz, htz⟩ := Option.isSome_iff_exists.1 (hall z (List.mem_cons_of_mem y hh))
        have hyz := hyrel z hh
        rw [pubGE, hty, htz] at hyz
        have hzy : tz ≤ ty := of_decide_eq_true hyz
        rw [pubGE, htp, htz]
        exact decide_eq_true (le_trans hzy hle)

theorem mem_sortPub (x : NugetPackageEntry) :
    ∀ l, x ∈ sortPub l → x ∈ l := by
  intro l
  induction l with
  | nil => intro hx; cases hx
  | cons y ys ih =>
    intro hx
    simp only [sortPub] at hx
    rcases mem_insertPub x y (sortPub ys) hx with hh | hh
    · exact hh ▸ List.mem_cons_self y ys
    · exact List.mem_cons_of_mem y (ih hh)

theorem sortPub_pairwise :
    ∀ l, (∀ y ∈ l, (parseRFC3339 y.published).isSome = true) →
      List.Pairwise (fun a b => pubGE a b = true) (sortPub l) := by
  intro l
  induction l with
  | nil => intro _; exact List.Pairwise.nil
  | cons x xs ih =>
    intro hall
    simp only [sortPub]
    exact pairwise_insertPub x (hall x (List.mem_cons_self x xs)) (sortPub xs)
      (fun z hz => hall z (List.mem_cons_of_mem x (mem_sortPub z xs hz)))
      (ih (fun z hz => hall z (List.mem_cons_of_mem x hz)))

theorem insertPub_unparsable (p : NugetPackageEntry)
    (hp : parseRFC3339 p.published = none) :
    ∀ l, insertPub p l = p :: l := by
  intro l
  cases l with
  | nil => rfl
  | cons y ys =>
    have hc : lessPub y p = false := by
      rw [lessPub, hp]
      cases parseRFC3339 y.published <;> rfl
    simp [insertPub, hc]

theorem filter_insertPub_parsable (p : NugetPackageEntry)
    (hp : (parseRFC3339 p.published).isNone = false) :
    ∀ l, (insertPub p l).filter (fun e => (parseRFC3339 e.published).isNone) =
      l.filter (fun e => (parseRFC3339 e.published).isNone) := by
  intro l
  induction l with
  | nil => simp [insertPub, List.filter, hp]
  | cons y ys ih =>
    simp only [insertPub]
    by_cases hc : lessPub y p
    · rw [if_pos hc]
      rw [List.filter_cons, List.filter_cons]
      cases hPy : (parseRFC3339 y.published).isNone <;> simp [hPy, ih]
    · rw [if_neg hc]
      rw [List.filter_cons]
      simp [hp]

theorem filter_unparsable_sortPub :
    ∀ l : List NugetPackageEntry,
      (sortPub l).filter (fun e => (parseRFC3339 e.published).isNone) =
        l.filter (fun e => (parseRFC3339 e.published).isNone) := by
  intro l
  induction l with
  | nil => rfl
  | cons x xs ih =>
    simp only [sortPub]
    cases hx : parseRFC3339 x.published with
    | none =>
      rw [insertPub_unparsable x hx]
      rw [List.filter_cons, List.filter_cons]
      simp [hx, ih]
    | some t =>
      rw [filter_insertPub_parsable x (by rw [hx]; rfl)]
      rw [List.filter_cons]
      simp [hx, ih]

theorem page_sublist (σ : StoreState) (id startAfter : String) (max : Nat) :
    ((GetPackageFeedEntries σ id startAfter max).1.1).Sublist (feedSorted σ id) := by
  rw [GetPackageFeedEntries_page]
  exact ((List.take_sublist _ _).trans (List.drop_sublist _ _))

/-- C8 counterexample: on the catalog [2020-entry, unparsable-entry,
    2021-entry] the returned page keeps the 2020 entry before the 2021 entry,
    so it is not sorted by published timestamp descending even between
    entries whose timestamps both parse. -/
theorem C8_counterexample :
    ¬ List.Pairwise (fun a b => pubGE a b = true)
      (GetPackageFeedEntries mixedState "" "" 100).1.1 := by decide

/-- C8 (amended): GetPackageFeedEntries never returns an error; when every
    published timestamp of the filtered catalog parses, the returned page is
    sorted by published timestamp descending; and (modelling the unspecified
    unstable sort.Slice as a stable sort) the entries with unparsable
    timestamps retain their relative order with respect to each other in the
    sorted result set.  When parseable and unparsable timestamps mix, the
    comparator is not a strict weak order and the page need not be sorted. -/
theorem C8_amended :
    (∀ (σ : StoreState) (id startAfter : String) (max : Nat),
      (GetPackageFeedEntries σ id startAfter max).1.2.2 = none) ∧
    (∀ (σ : StoreState) (id startAfter : String) (max : Nat),
      (∀ p ∈ feedFiltered σ id, (parseRFC3339 p.published).isSome = true) →
      List.Pairwise (fun a b => pubGE a b = true)
        (GetPackageFeedEntries σ id startAfter max).1.1) ∧
    (∀ (σ : StoreState) (id : String),
      (feedSorted σ id).filter (fun e => (parseRFC3339 e.published).isNone) =
        (feedFiltered σ id).filter (fun e => (parseRFC3339 e.published).isNone)) := by
  refine ⟨fun σ id sa max => rfl, fun σ id sa max hall => ?_, fun σ id => ?_⟩
  · exact List.Pairwise.sublist (page_sublist σ id sa max) (sortPub_pairwise _ hall)
  · exact filter_unparsable_sortPub (feedFiltered σ id)

/-- C8 witness: a concrete all-parseable catalog satisfies the hypothesis and
    its page comes out sorted descending. -/
theorem C8_amended_witness :
    List.Pairwise (fun a b => pubGE a b = true)
      (GetPackageFeedEntries parseableState "" "" 100).1.1 :=
  C8_amended.2.1 parseableState "" "" 100 (by decide)


/-! ## Claim C4: storing the same id+version twice -/

theorem fileExists_writeFile_self (d : List DiskFile) (p : String) (x : Bytes) (t : String) :
    fileExists (writeFile d p x t) p = true := by
  unfold fileExists writeFile
  by_cases h : d.any (fun f => f.path == p)
  · rw [if_pos h]
    obtain ⟨f, hf, hfp⟩ := List.any_eq_true.1 h
    refine List.any_eq_true.2 ⟨if f.path == p then ⟨p, x, t⟩ else f, List.mem_map_of_mem _ hf, ?_⟩
    rw [if_pos hfp]
    simp
  · rw [if_neg h]
    refine List.any_eq_true.2 ⟨⟨p, x, t⟩, by simp, by simp⟩

theorem fileExists_writeFile_mono (d : List DiskFile) (p q : String) (x : Bytes) (t : String)
    (h : fileExists d q = true) : fileExists (writeFile d p x t) q = true := by
  unfold fileExists writeFile
  obtain ⟨f, hf, hfq⟩ := List.any_eq_true.1 h
  by_cases hc : d.any (fun f => f.path == p)
  · rw [if_pos hc]
    refine List.any_eq_true.2 ⟨if f.path == p then ⟨p, x, t⟩ else f, List.mem_map_of_mem _ hf, ?_⟩
    by_cases hfp : f.path == p
    · rw [if_pos hfp]
      have h1 : f.path = q := beq_iff_eq.1 hfq
      have h2 : f.path = p := beq_iff_eq.1 hfp
      simp [← h1, ← h2]
    · rw [if_neg hfp]
      exact hfq
  · rw [if_neg hc]
    exact List.any_eq_true.2 ⟨f, List.mem_append_left _ hf, hfq⟩

theorem fileExists_writeContentFiles_mono (now dir : String) (q : String) :
    ∀ (fs : List (String × Bytes)) (d : List DiskFile),
      fileExists d q = true → fileExists (writeContentFiles now dir fs d) q = true := by
  intro fs
  induction fs with
  | nil => intro d h; exact h
  | cons fp rest ih =>
    intro d h
    cases fp with
    | mk f b =>
      simp only [writeContentFiles]
      by_cases hc : listStartsWith "content/".data f.data && !(zipFileIsDirectory f)
      · rw [if_pos hc]
        exact ih _ (fileExists_writeFile_mono _ _ _ _ _ h)
      · rw [if_neg hc]
        exact ih _ h

theorem find?_update_self (p : String) (x : Bytes) (t : String) :
    ∀ d : List DiskFile, d.any (fun f => f.path == p) = true →
      (d.map (fun f => if f.path == p then DiskFile.mk p x t else f)).find?
        (fun f => f.path == p) = some ⟨p, x, t⟩ := by
  intro d
  induction d with
  | nil => intro h; cases h
  | cons f d ih =>
    intro h
    rw [List.map_cons]
    by_cases hf : f.path == p
    · rw [if_pos hf]
      rw [List.find?_cons_of_pos]
      simp
    · rw [if_neg hf]
      rw [List.find?_cons_of_neg]
      · apply ih
        simp only [List.any_cons, hf] at h
        simpa using h
      · simp [hf]

theorem find?_append_new (p : String) (x : Bytes) (t : String) :
    ∀ d : List DiskFile, d.any (fun f => f.path == p) = false →
      ((d ++ [DiskFile.mk p x t]).find? (fun f => f.path == p)) = some ⟨p, x, t⟩ := by
  intro d
  induction d with
  | nil =>
    intro _
    rw [List.nil_append, List.find?_cons_of_pos]
    simp
  | cons f d ih =>
    intro h
    simp only [List.any_cons, Bool.or_eq_false_iff] at h
    rw [List.cons_append, List.find?_cons_of_neg]
    · exact ih h.2
    · simp [h.1]

theorem findFile_writeFile_self (d : List DiskFile) (p : String) (x : Bytes) (t : String) :
    findFile (writeFile d p x t) p = some ⟨p, x, t⟩ := by
  unfold findFile writeFile
  by_cases h : d.any (fun f => f.path == p)
  · rw [if_pos h]
    exact find?_update_self p x t d h
  · rw [if_neg h]
    apply find?_append_new p x t d
    revert h
    cases d.any (fun f => f.path == p) <;> simp

theorem countIdVer_insert_match (p : NugetPackageEntry) (id ver : String)
    (hp : (p.id == id && p.version == ver) = true) :
    ∀ l, countIdVer (insertByFilename p l) id ver = countIdVer l id ver + 1 := by
  intro l
  induction l with
  | nil => simp [insertByFilename, countIdVer, List.filter_cons, hp]
  | cons q qs ih =>
    simp only [insertByFilename]
    by_cases hc : strLt p.filename q.filename
    · rw [if_pos hc]
      simp only [countIdVer, List.filter_cons, hp] at ih ⊢
      by_cases hq : (q.id == id && q.version == ver) = true <;> simp [hq]
    · rw [if_neg hc]
      simp only [countIdVer, List.filter_cons] at ih ⊢
      by_cases hq : (q.id == id && q.version == ver) = true <;> simp [hq, ih]

theorem countIdVer_recalc (pkgs : List NugetPackageEntry) (id ver : String) :
    countIdVer (RecalculateLatestVersions pkgs) id ver = countIdVer pkgs id ver := by
  unfold countIdVer RecalculateLatestVersions
  rw [List.filter_map, List.length_map]
  rfl

theorem listStartsWith_self_append : ∀ (pat rest : List Char), listStartsWith pat (pat ++ rest) = true := by
  intro pat rest
  induction pat with
  | nil => rfl
  | cons c cs ih => simp [listStartsWith, ih]

theorem listContainsSub_of_startsWith (s pat : List Char) (h : listStartsWith pat s = true) :
    listContainsSub s pat = true := by
  cases s with
  | nil =>
    cases pat with
    | nil => rfl
    | cons c cs => cases h
  | cons c cs => simp [listContainsSub, h]

theorem listContainsSub_append_left : ∀ (pre s pat : List Char),
    listContainsSub s pat = true → listContainsSub (pre ++ s) pat = true := by
  intro pre
  induction pre with
  | nil => intro s pat h; exact h
  | cons c cs ih =>
    intro s pat h
    rw [List.cons_append]
    simp only [listContainsSub]
    rw [ih s pat h]
    simp

theorem containsSubStr_already (path : String) :
    containsSubStr ("package already exists: " ++ path) "already exists" = true := by
  unfold containsSubStr
  rw [String.data_append]
  have h1 : "package already exists: ".data =
      "package ".data ++ ("already exists".data ++ ": ".data) := by decide
  rw [h1, List.append_assoc]
  apply listContainsSub_append_left
  rw [List.append_assoc]
  apply listContainsSub_of_startsWith
  exact listStartsWith_self_append _ _

theorem StorePackage_success (R : ArchiveReader) (σ : StoreState) (pkg : Bytes)
    (m : NuSpec) (fls : List (String × Bytes))
    (hex : R.extract pkg = some (m, fls))
    (hfresh : fileExists σ.files (nupkgPathOf m) = false) :
    StorePackage R σ pkg = ((true, none), storeSuccessState R σ m fls pkg) := by
  unfold StorePackage
  rw [hex]
  simp only
  rw [if_neg (by rw [show filePathOf (toLowerStr m.id) m.version = nupkgPathOf m from rfl, hfresh]; simp)]
  unfold LoadPackage
  rw [show filePathOf (toLowerStr m.id) m.version = nupkgPathOf m from rfl]
  rw [findFile_writeFile_self]
  simp only
  rw [hex]
  rfl

theorem StorePackage_conflict (R : ArchiveReader) (σ : StoreState) (pkg : Bytes)
    (m : NuSpec) (fls : List (String × Bytes))
    (hex : R.extract pkg = some (m, fls))
    (hexists : fileExists σ.files (nupkgPathOf m) = true) :
    StorePackage R σ pkg =
      ((false, some ("package already exists: " ++ nupkgPathOf m)), σ) := by
  unfold StorePackage
  rw [hex]
  simp only
  rw [if_pos (by rw [show filePathOf (toLowerStr m.id) m.version = nupkgPathOf m from rfl, hexists])]
  rfl

/-- C4: storing an archive whose id+version is not yet present succeeds, and
    an immediately repeated StorePackage with the same archive fails with an
    error whose text contains "already exists", leaving the catalog with
    exactly one entry for that id and version. -/
theorem C4_store_twice (R : ArchiveReader) (σ : StoreState) (pkg : Bytes)
    (m : NuSpec) (fls : List (String × Bytes))
    (hex : R.extract pkg = some (m, fls))
    (hfresh : fileExists σ.files (nupkgPathOf m) = false)
    (hcount : countIdVer σ.packages m.id m.version = 0) :
    (StorePackage R σ pkg).1.1 = true ∧
    (StorePackage R (StorePackage R σ pkg).2 pkg).1.1 = false ∧
    (∃ msg, (StorePackage R (StorePackage R σ pkg).2 pkg).1.2 = some msg ∧
      containsSubStr msg "already exists" = true) ∧
    countIdVer ((StorePackage R (StorePackage R σ pkg).2 pkg).2).packages m.id m.version = 1 := by
  have h1 := StorePackage_success R σ pkg m fls hex hfresh
  have hex1 : fileExists (storeSuccessState R σ m fls pkg).files (nupkgPathOf m) = true := by
    unfold storeSuccessState
    apply fileExists_writeContentFiles_mono
    apply fileExists_writeContentFiles_mono
    exact fileExists_writeFile_self _ _ _ _
  have h2 := StorePackage_conflict R (storeSuccessState R σ m fls pkg) pkg m fls hex hex1
  refine ⟨by rw [h1], ?_, ?_, ?_⟩
  · rw [h1]
    simp only
    rw [h2]
  · refine ⟨"package already exists: " ++ nupkgPathOf m, ?_, containsSubStr_already _⟩
    rw [h1]
    simp only
    rw [h2]
  · rw [h1]
    simp only
    rw [h2]
    show countIdVer (storeSuccessState R σ m fls pkg).packages m.id m.version = 1
    unfold storeSuccessState
    simp only
    rw [countIdVer_recalc]
    rw [countIdVer_insert_match _ _ _ (by simp [storedEntry])]
    rw [show ({ σ with files := writeFile σ.files (nupkgPathOf m) pkg σ.now } : StoreState).packages = σ.packages from rfl]
    rw [hcount]

/-- C4 witness: the double store of the concrete archive [7] into the empty
    store. -/
theorem C4_witness :
    (StorePackage testReader emptyState [7]).1.1 = true ∧
    (StorePackage testReader (StorePackage testReader emptyState [7]).2 [7]).1.1 = false ∧
    (∃ msg, (StorePackage testReader (StorePackage testReader emptyState [7]).2 [7]).1.2 = some msg ∧
      containsSubStr msg "already exists" = true) ∧
    countIdVer ((StorePackage testReader (StorePackage testReader emptyState [7]).2 [7]).2).packages
      "pkg" "1.0" = 1 :=
  C4_store_twice testReader emptyState [7] testNuSpec [("content/readme.txt", [1, 2])]
    (by decide) (by decide) (by decide)


/-! ## Reading back a freshly stored archive (shared by claims C6 and C7) -/

theorem findFile_writeFile_other (d : List DiskFile) (p q : String) (x : Bytes) (t : String)
    (hne : p ≠ q) : findFile (writeFile d p x t) q = findFile d q := by
  have hbeq : (p == q) = false := by
    simp [hne]
  unfold findFile writeFile
  by_cases h : d.any (fun f => f.path == p)
  · rw [if_pos h]
    clear h
    induction d with
    | nil => rfl
    | cons f d ih =>
      rw [List.map_cons]
      by_cases hf : f.path == p
      · have hfq : (f.path == q) = false := by
          have h2 : f.path = p := beq_iff_eq.1 hf
          rw [h2]
          exact hbeq
        rw [if_pos hf]
        rw [List.find?_cons_of_neg, List.find?_cons_of_neg]
        · exact ih
        · simp [hfq]
        · simp [hbeq]
      · rw [if_neg hf]
        by_cases hfq : f.path == q
        · rw [List.find?_cons_of_pos, List.find?_cons_of_pos]
          · exact hfq
          · exact hfq
        · rw [List.find?_cons_of_neg, List.find?_cons_of_neg]
          · exact ih
          · simpa using hfq
          · simpa using hfq
  · rw [if_neg h]
    clear h
    induction d with
    | nil =>
      rw [List.nil_append, List.find?_cons_of_neg]
      simp [hbeq]
    | cons f d ih =>
      rw [List.cons_append]
      by_cases hfq : f.path == q
      · rw [List.find?_cons_of_pos, List.find?_cons_of_pos]
        · exact hfq
        · exact hfq
      · rw [List.find?_cons_of_neg, List.find?_cons_of_neg]
        · exact ih
        · simpa using hfq
        · simpa using hfq

theorem findFile_writeContentFiles_of_ne (now dir q : String) :
    ∀ (fs : List (String × Bytes)),
      (∀ fp ∈ fs,
        cleanPath (dir ++ "/" ++ (⟨stripContentRepeats fp.1.data⟩ : String)) ≠ q) →
      ∀ (d : List DiskFile),
        findFile (writeContentFiles now dir fs d) q = findFile d q := by
  intro fs
  induction fs with
  | nil => intro _ d; rfl
  | cons fp rest ih =>
    intro hne d
    cases fp with
    | mk f b =>
      simp only [writeContentFiles]
      by_cases hc : (listStartsWith "content/".data f.data && !(zipFileIsDirectory f)) = true
      · rw [if_pos hc, ih (fun x hx => hne x (List.mem_cons_of_mem _ hx)) _,
          findFile_writeFile_other]
        exact hne (f, b) (List.mem_cons_self _ _)
      · rw [if_neg hc, ih (fun x hx => hne x (List.mem_cons_of_mem _ hx)) _]

theorem contentTarget_ne (m : NuSpec) (hid : '/' ∉ (toLowerStr m.id).data)
    (hver : '/' ∉ m.version.data) (rel : String) :
    ¬ (toLowerStr m.id ++ "/" ++ m.version ++ "/content" ++ "/" ++ rel = nupkgPathOf m) := by
  intro heq
  have hd := congrArg String.data heq
  rw [show nupkgPathOf m = filePathOf (toLowerStr m.id) m.version from rfl] at hd
  unfold filePathOf at hd
  have h1 : "/".data = ['/'] := by decide
  have h2 : "/content".data = ['/', 'c', 'o', 'n', 't', 'e', 'n', 't'] := by decide
  have h3 : ".".data = ['.'] := by decide
  have h4 : ".nupkg".data = ['.', 'n', 'u', 'p', 'k', 'g'] := by decide
  simp only [String.data_append, h1, h2, h3, h4, List.append_assoc, List.cons_append,
    List.nil_append] at hd
  have hd2 := List.append_cancel_left hd
  simp only [List.cons.injEq, true_and] at hd2
  have hd3 := List.append_cancel_left hd2
  simp only [List.cons.injEq, true_and] at hd3
  have hmem : ('/' : Char) ∈
      ('c' :: 'o' :: 'n' :: 't' :: 'e' :: 'n' :: 't' :: '/' :: rel.data : List Char) := by
    simp
  rw [hd3] at hmem
  rcases List.mem_append.1 hmem with h | h
  · exact hid h
  · rcases List.mem_cons.1 h with h | h
    · exact absurd h (by decide)
    · rcases List.mem_append.1 h with h | h
      · exact hver h
      · exact absurd h (by decide)

theorem splitOnSlashAux_head_seg :
    ∀ (xs acc ys : List Char), (∀ c ∈ xs, c ≠ '/') →
      splitOnSlashAux acc (xs ++ '/' :: ys) =
        (acc.reverse ++ xs) :: splitOnSlashAux [] ys := by
  intro xs
  induction xs with
  | nil =>
    intro acc ys _
    simp [splitOnSlashAux]
  | cons c cs ih =>
    intro acc ys h
    have hc : (c == '/') = false := by
      simpa using h c (List.mem_cons_self c cs)
    rw [List.cons_append]
    simp only [splitOnSlashAux, hc, Bool.false_eq_true, if_false]
    rw [ih (c :: acc) ys (fun x hx => h x (List.mem_cons_of_mem c hx))]
    simp

theorem splitOnSlashAux_ne_nil : ∀ (cs acc : List Char), splitOnSlashAux acc cs ≠ [] := by
  intro cs
  induction cs with
  | nil => intro acc; simp [splitOnSlashAux]
  | cons c cs ih =>
    intro acc
    by_cases hc : (c == '/') = true
    · simp [splitOnSlashAux, hc]
    · simp only [splitOnSlashAux, hc, Bool.false_eq_true, if_false]
      exact ih (c :: acc)

theorem joinSegs_splitOnSlashAux :
    ∀ (cs acc : List Char), joinSegs (splitOnSlashAux acc cs) = acc.reverse ++ cs := by
  intro cs
  induction cs with
  | nil => intro acc; simp [splitOnSlashAux, joinSegs]
  | cons c cs ih =>
    intro acc
    by_cases hc : (c == '/') = true
    · have hc2 : c = '/' := by simpa using hc
      simp only [splitOnSlashAux, hc, if_true]
      obtain ⟨b, t, hbt⟩ := List.exists_cons_of_ne_nil (splitOnSlashAux_ne_nil cs [])
      rw [hbt]
      show acc.reverse ++ '/' :: joinSegs (b :: t) = _
      rw [← hbt, ih []]
      simp [hc2]
    · simp only [splitOnSlashAux, hc, Bool.false_eq_true, if_false]
      rw [ih (c :: acc)]
      simp

theorem cleanSegsAux_clean :
    ∀ (segs acc : List (List Char)), (∀ s ∈ segs, segOK s = true) →
      cleanSegsAux acc segs = acc.reverse ++ segs := by
  intro segs
  induction segs with
  | nil => intro acc _; simp [cleanSegsAux]
  | cons s rest ih =>
    intro acc h
    have hs : (s.isEmpty || s == ['.'] || s == ['.', '.']) = false := by
      have h0 := h s (List.mem_cons_self s rest)
      unfold segOK at h0
      simpa using h0
    have h1 : (s.isEmpty || s == ['.']) = false := (Bool.or_eq_false_iff.1 hs).1
    have h2 : (s == ['.', '.']) = false := (Bool.or_eq_false_iff.1 hs).2
    simp only [cleanSegsAux, h1, h2, Bool.false_eq_true, if_false]
    rw [ih (s :: acc) (fun x hx => h x (List.mem_cons_of_mem s hx))]
    simp

theorem cleanPath_of_clean (s : String) (h : pathSegsOK s = true) : cleanPath s = s := by
  unfold cleanPath
  rw [cleanSegsAux_clean (splitOnSlash s.data) []
    (fun seg hseg => List.all_eq_true.1 h seg hseg)]
  rw [List.reverse_nil, List.nil_append]
  show (⟨joinSegs (splitOnSlashAux [] s.data)⟩ : String) = s
  rw [joinSegs_splitOnSlashAux s.data [], List.reverse_nil, List.nil_append]

theorem contentPath_data (idS ver rel : String) :
    (idS ++ "/" ++ ver ++ "/content" ++ "/" ++ rel).data =
      idS.data ++ '/' :: (ver.data ++ '/' ::
        ('c' :: 'o' :: 'n' :: 't' :: 'e' :: 'n' :: 't' :: '/' :: rel.data)) := by
  have h1 : "/".data = ['/'] := by decide
  have h2 : "/content".data = ['/', 'c', 'o', 'n', 't', 'e', 'n', 't'] := by decide
  simp only [String.data_append, h1, h2, List.append_assoc, List.cons_append,
    List.nil_append]

theorem contentTarget_segs (idS ver rel : String)
    (hid : '/' ∉ idS.data) (hver : '/' ∉ ver.data) :
    splitOnSlash (idS ++ "/" ++ ver ++ "/content" ++ "/" ++ rel).data =
      idS.data :: ver.data :: ['c', 'o', 'n', 't', 'e', 'n', 't'] ::
        splitOnSlash rel.data := by
  unfold splitOnSlash
  rw [contentPath_data]
  show splitOnSlashAux []
      (idS.data ++ '/' :: (ver.data ++ '/' ::
        (['c', 'o', 'n', 't', 'e', 'n', 't'] ++ '/' :: rel.data))) = _
  rw [splitOnSlashAux_head_seg idS.data [] _ (fun c hc he => hid (he ▸ hc))]
  rw [splitOnSlashAux_head_seg ver.data [] _ (fun c hc he => hver (he ▸ hc))]
  rw [splitOnSlashAux_head_seg ['c', 'o', 'n', 't', 'e', 'n', 't'] [] rel.data (by decide)]
  simp

theorem cleanPath_contentTarget (idS ver rel : String)
    (hid : '/' ∉ idS.data) (hver : '/' ∉ ver.data)
    (hidseg : segOK idS.data = true) (hverseg : segOK ver.data = true)
    (hrel : pathSegsOK rel = true) :
    cleanPath (idS ++ "/" ++ ver ++ "/content" ++ "/" ++ rel) =
      idS ++ "/" ++ ver ++ "/content" ++ "/" ++ rel := by
  apply cleanPath_of_clean
  unfold pathSegsOK
  rw [contentTarget_segs idS ver rel hid hver]
  have hcontent : segOK ['c', 'o', 'n', 't', 'e', 'n', 't'] = true := by decide
  simp only [List.all_cons, hidseg, hverseg, hcontent, Bool.true_and]
  exact hrel

theorem findFile_storeSuccess (R : ArchiveReader) (σ : StoreState) (m : NuSpec)
    (fls : List (String × Bytes)) (pkg : Bytes)
    (hid : '/' ∉ (toLowerStr m.id).data) (hver : '/' ∉ m.version.data)
    (hidseg : segOK (toLowerStr m.id).data = true)
    (hverseg : segOK m.version.data = true)
    (hfls : ∀ fp ∈ fls, pathSegsOK (⟨stripContentRepeats fp.1.data⟩ : String) = true) :
    findFile (storeSuccessState R σ m fls pkg).files (nupkgPathOf m) =
      some ⟨nupkgPathOf m, pkg, σ.now⟩ := by
  have hne : ∀ fp ∈ fls,
      cleanPath ((toLowerStr m.id ++ "/" ++ m.version ++ "/content") ++ "/" ++
        (⟨stripContentRepeats fp.1.data⟩ : String)) ≠ nupkgPathOf m := by
    intro fp hfp
    rw [cleanPath_contentTarget (toLowerStr m.id) m.version _ hid hver hidseg hverseg
      (hfls fp hfp)]
    exact contentTarget_ne m hid hver _
  unfold storeSuccessState packageDirOf
  simp only
  rw [findFile_writeContentFiles_of_ne _ _ _ fls hne]
  rw [findFile_writeContentFiles_of_ne _ _ _ fls hne]
  exact findFile_writeFile_self _ _ _ _

theorem readFile_storeSuccess (R : ArchiveReader) (σ : StoreState) (m : NuSpec)
    (fls : List (String × Bytes)) (pkg : Bytes)
    (hid : '/' ∉ (toLowerStr m.id).data) (hver : '/' ∉ m.version.data)
    (hidseg : segOK (toLowerStr m.id).data = true)
    (hverseg : segOK m.version.data = true)
    (hfls : ∀ fp ∈ fls, pathSegsOK (⟨stripContentRepeats fp.1.data⟩ : String) = true) :
    readFile (storeSuccessState R σ m fls pkg).files (nupkgPathOf m) = some pkg := by
  unfold readFile
  rw [findFile_storeSuccess R σ m fls pkg hid hver hidseg hverseg hfls]
  rfl


/-! ## Claim C7: store/fetch round trip -/

theorem filter_insertByFilename_single (p : NugetPackageEntry)
    (pred : NugetPackageEntry → Bool) (hp : pred p = true) :
    ∀ l, (∀ q ∈ l, pred q = false) →
      (insertByFilename p l).filter pred = [p] := by
  intro l
  induction l with
  | nil => simp [insertByFilename, List.filter_cons, hp]
  | cons q qs ih =>
    intro hl
    simp only [insertByFilename]
    by_cases hc : strLt p.filename q.filename
    · rw [if_pos hc]
      rw [List.filter_cons, List.filter_cons]
      rw [hl q (List.mem_cons_self q qs)]
      simp only [hp, if_pos]
      have : qs.filter pred = [] := List.filter_eq_nil_iff.2
        (fun x hx => by simp [hl x (List.mem_cons_of_mem q hx)])
      simp [this]
    · rw [if_neg hc]
      rw [List.filter_cons]
      rw [hl q (List.mem_cons_self q qs)]
      simp only [Bool.false_eq_true, if_false]
      exact ih (fun x hx => hl x (List.mem_cons_of_mem q hx))

theorem filter_recalc_insert_single (E : NugetPackageEntry) (l : List NugetPackageEntry)
    (pred : NugetPackageEntry → Bool)
    (hpred : ∀ (P : List NugetPackageEntry) (x : NugetPackageEntry),
      pred (markLatest P x) = pred x)
    (hp : pred E = true) (hl : ∀ q ∈ l, pred q = false) :
    (RecalculateLatestVersions (insertByFilename E l)).filter pred =
      [markLatest (insertByFilename E l) E] := by
  unfold RecalculateLatestVersions
  rw [List.filter_map]
  have hcomp : (insertByFilename E l).filter
      (pred ∘ markLatest (insertByFilename E l)) = [E] := by
    have : (pred ∘ markLatest (insertByFilename E l)) = pred := by
      funext x
      exact hpred _ x
    rw [this]
    exact filter_insertByFilename_single E pred hp l hl
  rw [hcomp]
  rfl

/-- C7 counterexample: the archive [9] carries manifest id "Foo"; StorePackage
    accepts it (storing the file under the lowercased id "foo"), but an
    immediately following GetPackageFile for that id and version reads the
    path built from "Foo" verbatim and reports not-found instead of the
    uploaded bytes. -/
theorem C7_counterexample :
    (StorePackage fooReader emptyState [9]).1.1 = true ∧
    (GetPackageFile (StorePackage fooReader emptyState [9]).2 "Foo" "1.0").1 = none := by
  refine ⟨by decide, by decide⟩

/-- C7 (amended): for every archive accepted by StorePackage whose manifest
    id and version are slash-free, Clean-invariant path elements (as real ids
    and versions are) and whose payload paths, once the leading content/
    repeats are stripped, contain no empty, "." or ".." elements (so
    filepath.Join moves none of them out of the content directory), stored
    into a store whose catalog has no entry for that id and version yet: an
    immediately following GetPackageFile for the lowercased id and the
    version returns a byte string identical to the uploaded bytes, and
    GetPackageEntry for the manifest id and version returns an entry whose
    manifest-derived fields match the archive's parsed manifest. -/
theorem C7_roundtrip_amended (R : ArchiveReader) (σ : StoreState) (pkg : Bytes)
    (m : NuSpec) (fls : List (String × Bytes))
    (hex : R.extract pkg = some (m, fls))
    (hfresh : fileExists σ.files (nupkgPathOf m) = false)
    (hid : '/' ∉ (toLowerStr m.id).data) (hver : '/' ∉ m.version.data)
    (hidseg : segOK (toLowerStr m.id).data = true)
    (hverseg : segOK m.version.data = true)
    (hfls : ∀ fp ∈ fls, pathSegsOK (⟨stripContentRepeats fp.1.data⟩ : String) = true)
    (hcat : ∀ q ∈ σ.packages, (equalFold q.id m.id && q.version == m.version) = false) :
    (StorePackage R σ pkg).1.1 = true ∧
    (GetPackageFile (StorePackage R σ pkg).2 (toLowerStr m.id) m.version).1 =
      some (pkg, "application/octet-stream") ∧
    (∃ e, (GetPackageEntry (StorePackage R σ pkg).2 m.id m.version).1 = some e ∧
      e.id = m.id ∧ e.version = m.version ∧ e.authors = m.authors ∧
      e.description = m.description ∧ e.tags = m.tags) := by
  have h1 := StorePackage_success R σ pkg m fls hex hfresh
  refine ⟨by rw [h1], ?_, ?_⟩
  · rw [h1]
    show (GetPackageFile (storeSuccessState R σ m fls pkg) (toLowerStr m.id) m.version).1 =
      some (pkg, "application/octet-stream")
    unfold GetPackageFile
    rw [show filePathOf (toLowerStr m.id) m.version = nupkgPathOf m from rfl]
    simp only [readFile_storeSuccess R σ m fls pkg hid hver hidseg hverseg hfls]
  · rw [h1]
    show ∃ e, (GetPackageEntry (storeSuccessState R σ m fls pkg) m.id m.version).1 = some e ∧
      e.id = m.id ∧ e.version = m.version ∧ e.authors = m.authors ∧
      e.description = m.description ∧ e.tags = m.tags
    have hpE : (equalFold (storedEntry R σ.now σ.baseURL m pkg).id m.id &&
        (storedEntry R σ.now σ.baseURL m pkg).version == m.version) = true := by
      simp [storedEntry, equalFold]
    have hfilter := filter_recalc_insert_single (storedEntry R σ.now σ.baseURL m pkg)
      σ.packages (fun p => equalFold p.id m.id && p.version == m.version)
      (fun P x => rfl) hpE hcat
    have hlast : ((storeSuccessState R σ m fls pkg).packages.filter
        (fun p => equalFold p.id m.id && p.version == m.version)).getLast? =
        some (markLatest (insertByFilename (storedEntry R σ.now σ.baseURL m pkg) σ.packages)
          (storedEntry R σ.now σ.baseURL m pkg)) := by
      rw [show (storeSuccessState R σ m fls pkg).packages =
        RecalculateLatestVersions (insertByFilename (storedEntry R σ.now σ.baseURL m pkg)
          σ.packages) from rfl]
      rw [hfilter]
      simp
    unfold GetPackageEntry
    simp only [hlast]
    exact ⟨_, rfl, rfl, rfl, rfl, rfl, rfl⟩

/-- C7 witness: the concrete archive [7] with manifest id "pkg" (already
    lowercase) round-trips through store, fetch and entry lookup. -/
theorem C7_witness :
    (StorePackage testReader emptyState [7]).1.1 = true ∧
    (GetPackageFile (StorePackage testReader emptyState [7]).2 (toLowerStr "pkg") "1.0").1 =
      some ([7], "application/octet-stream") ∧
    (∃ e, (GetPackageEntry (StorePackage testReader emptyState [7]).2 "pkg" "1.0").1 = some e ∧
      e.id = "pkg" ∧ e.version = "1.0" ∧ e.authors = "au" ∧
      e.description = "de" ∧ e.tags = "tg") :=
  C7_roundtrip_amended testReader emptyState [7] testNuSpec [("content/readme.txt", [1, 2])]
    (by decide) (by decide) (by decide) (by decide) (by decide) (by decide) (by decide)
    (by decide)


/-! ## Claim C6: download accounting across fetches and a restart -/

theorem lexLt_irrefl : ∀ a : List Char, lexLt a a = false := by
  intro a
  induction a with
  | nil => rfl
  | cons c cs ih => simp [lexLt, lt_irrefl, ih]

theorem equalFold_refl (a : String) : equalFold a a = true := by
  simp [equalFold]

theorem lookupCount_single_self (k : String) (v : Int) :
    lookupCount [(k, v)] k = some v := by
  simp [lookupCount, List.find?]

theorem bumpCount_nil (k : String) : bumpCount [] k = [(k, 1)] := by
  simp [bumpCount, setCount, lookupCount, List.find?]

theorem bumpCount_single_self (k : String) (v : Int) :
    bumpCount [(k, v)] k = [(k, v + 1)] := by
  simp [bumpCount, setCount, lookupCount, List.find?, List.any_cons]

theorem mem_writeFile (d : List DiskFile) (p : String) (x : Bytes) (t : String)
    (f' : DiskFile) (h : f' ∈ writeFile d p x t) : f' = ⟨p, x, t⟩ ∨ f' ∈ d := by
  unfold writeFile at h
  by_cases hc : d.any (fun f => f.path == p)
  · rw [if_pos hc] at h
    obtain ⟨f, hf, hfe⟩ := List.mem_map.1 h
    by_cases hfp : f.path == p
    · rw [if_pos hfp] at hfe
      exact Or.inl hfe.symm
    · rw [if_neg hfp] at hfe
      exact Or.inr (hfe ▸ hf)
  · rw [if_neg hc] at h
    rcases List.mem_append.1 h with hh | hh
    · exact Or.inr hh
    · rcases List.mem_cons.1 hh with hh2 | hh2
      · exact Or.inl hh2
      · cases hh2

theorem mem_writeContentFiles (now dir : String) :
    ∀ (fs : List (String × Bytes)) (d : List DiskFile) (f' : DiskFile),
      f' ∈ writeContentFiles now dir fs d →
      (∃ fp ∈ fs, f'.path =
        cleanPath (dir ++ "/" ++ (⟨stripContentRepeats fp.1.data⟩ : String))) ∨ f' ∈ d := by
  intro fs
  induction fs with
  | nil => intro d f' h; exact Or.inr h
  | cons fp rest ih =>
    intro d f' h
    cases fp with
    | mk f b =>
      simp only [writeContentFiles] at h
      by_cases hc : (listStartsWith "content/".data f.data && !(zipFileIsDirectory f)) = true
      · rw [if_pos hc] at h
        rcases ih _ f' h with ⟨fp2, hfp2, hh⟩ | hh
        · exact Or.inl ⟨fp2, List.mem_cons_of_mem _ hfp2, hh⟩
        · rcases mem_writeFile _ _ _ _ _ hh with hh2 | hh2
          · exact Or.inl ⟨(f, b), List.mem_cons_self _ _, by rw [hh2]⟩
          · exact Or.inr hh2
      · rw [if_neg hc] at h
        rcases ih _ f' h with ⟨fp2, hfp2, hh⟩ | hh
        · exact Or.inl ⟨fp2, List.mem_cons_of_mem _ hfp2, hh⟩
        · exact Or.inr hh

theorem split_at_slash (rest : List Char) :
    ∀ a : List Char, (∀ c ∈ a, c ≠ '/') →
      ((a ++ '/' :: rest).takeWhile (fun c => c != '/') = a ∧
       (a ++ '/' :: rest).drop (a.length + 1) = rest) := by
  intro a
  induction a with
  | nil => exact fun _ => ⟨rfl, rfl⟩
  | cons c cs ih =>
    intro h
    have hc : (c != '/') = true := by
      simpa using h c (List.mem_cons_self c cs)
    obtain ⟨h1, h2⟩ := ih (fun x hx => h x (List.mem_cons_of_mem c hx))
    constructor
    · rw [List.cons_append, List.takeWhile_cons, hc]
      simp only [if_true]
      rw [h1]
    · rw [List.cons_append]
      rw [show (c :: cs).length + 1 = (cs.length + 1) + 1 from by simp [List.length_cons]]
      rw [List.drop_succ_cons]
      exact h2

theorem firstComp_shape (a : String) (ha : '/' ∉ a.data) (rest : List Char) :
    firstComp (a.data ++ '/' :: rest) = some (a, rest) := by
  obtain ⟨h1, h2⟩ := split_at_slash rest a.data (fun c hc he => ha (he ▸ hc))
  unfold firstComp
  simp only [h1]
  have hlen : (a.data.length == (a.data ++ '/' :: rest).length) = false := by
    simp [List.length_append]
  rw [hlen]
  simp only [Bool.false_eq_true, if_false]
  rw [h2]

theorem filterMap_all_some {α β : Type} (g : α → Option β) (a : β) :
    ∀ l : List α, (∀ x ∈ l, g x = some a) → l.filterMap g = l.map (fun _ => a) := by
  intro l
  induction l with
  | nil => intro _; rfl
  | cons x xs ih =>
    intro h
    rw [List.filterMap_cons, h x (List.mem_cons_self x xs), List.map_cons]
    rw [ih (fun y hy => h y (List.mem_cons_of_mem x hy))]

theorem sortedDedup_map_const {α : Type} (a : String) :
    ∀ l : List α, l ≠ [] → sortedDedup (l.map (fun _ => a)) = [a] := by
  intro l
  induction l with
  | nil => intro h; exact absurd rfl h
  | cons x xs ih =>
    intro _
    rw [List.map_cons]
    show sortedInsertStr a (sortedDedup (xs.map (fun _ => a))) = [a]
    cases hxs : xs with
    | nil => rfl
    | cons y ys =>
      rw [show sortedDedup ((y :: ys).map (fun _ => a)) = [a] from
        hxs ▸ ih (by simp [hxs])]
      show (if strLt a a = true then a :: [a] else if a == a then [a] else
        a :: sortedInsertStr a []) = [a]
      rw [show strLt a a = false from lexLt_irrefl a.data]
      simp


theorem fileExists_of_findFile (files : List DiskFile) (p : String) (f : DiskFile)
    (h : findFile files p = some f) : fileExists files p = true := by
  unfold findFile at h
  unfold fileExists
  rw [List.any_eq_true]
  have hm : f ∈ files := List.mem_of_find?_eq_some h
  have hp : (f.path == p) = true := @List.find?_some _ (fun f => f.path == p) f files h
  exact ⟨f, hm, hp⟩

theorem ne_nil_of_fileExists (files : List DiskFile) (p : String)
    (h : fileExists files p = true) : files ≠ [] := by
  intro he
  rw [he] at h
  simp [fileExists] at h

theorem filePathOf_data (idS ver : String) :
    (filePathOf idS ver).data =
      idS.data ++ '/' :: (ver.data ++ '/' ::
        (idS.data ++ '.' :: (ver.data ++ ['.', 'n', 'u', 'p', 'k', 'g']))) := by
  have h1 : "/".data = ['/'] := by decide
  have h3 : ".".data = ['.'] := by decide
  have h4 : ".nupkg".data = ['.', 'n', 'u', 'p', 'k', 'g'] := by decide
  unfold filePathOf
  simp only [String.data_append, h1, h3, h4, List.append_assoc, List.cons_append,
    List.nil_append]

theorem storeSuccess_path_shape (R : ArchiveReader) (σ : StoreState) (m : NuSpec)
    (fls : List (String × Bytes)) (pkg : Bytes)
    (hfiles : σ.files = []) (hlow : toLowerStr m.id = m.id)
    (hid : '/' ∉ m.id.data) (hver : '/' ∉ m.version.data)
    (hidseg : segOK m.id.data = true) (hverseg : segOK m.version.data = true)
    (hfls : ∀ fp ∈ fls, pathSegsOK (⟨stripContentRepeats fp.1.data⟩ : String) = true) :
    ∀ f' ∈ (storeSuccessState R σ m fls pkg).files, ∃ rest : List Char,
      f'.path.data = m.id.data ++ '/' :: (m.version.data ++ '/' :: rest) := by
  intro f' hf
  simp only [storeSuccessState, packageDirOf, hfiles] at hf
  have hidlow : '/' ∉ (toLowerStr m.id).data := by
    rw [hlow]
    exact hid
  have hidseglow : segOK (toLowerStr m.id).data = true := by
    rw [hlow]
    exact hidseg
  have htarget : ∀ fp ∈ fls, ∃ rest2 : List Char,
      (cleanPath ((toLowerStr m.id ++ "/" ++ m.version ++ "/content") ++ "/" ++
        (⟨stripContentRepeats fp.1.data⟩ : String))).data =
        m.id.data ++ '/' :: (m.version.data ++ '/' :: rest2) := by
    intro fp hfp
    rw [cleanPath_contentTarget (toLowerStr m.id) m.version _ hidlow hver hidseglow
      hverseg (hfls fp hfp)]
    have h := contentPath_data (toLowerStr m.id) m.version
      (⟨stripContentRepeats fp.1.data⟩ : String)
    rw [show (toLowerStr m.id).data = m.id.data from congrArg String.data hlow] at h
    exact ⟨_, h⟩
  rcases mem_writeContentFiles _ _ _ _ _ hf with ⟨fp, hfp, hrel⟩ | hf2
  · obtain ⟨rest2, h2⟩ := htarget fp hfp
    exact ⟨rest2, by rw [hrel]; exact h2⟩
  rcases mem_writeContentFiles _ _ _ _ _ hf2 with ⟨fp, hfp, hrel⟩ | hf3
  · obtain ⟨rest2, h2⟩ := htarget fp hfp
    exact ⟨rest2, by rw [hrel]; exact h2⟩
  rcases mem_writeFile _ _ _ _ _ hf3 with he | hmem
  · refine ⟨m.id.data ++ '.' :: (m.version.data ++ ['.', 'n', 'u', 'p', 'k', 'g']), ?_⟩
    rw [he]
    show (nupkgPathOf m).data = _
    unfold nupkgPathOf
    rw [hlow]
    exact filePathOf_data m.id m.version
  · exact absurd hmem (List.not_mem_nil f')

theorem level1Dirs_of_shape (idS ver : String) (hid : '/' ∉ idS.data)
    (files : List DiskFile)
    (hshape : ∀ f' ∈ files, ∃ rest : List Char,
      f'.path.data = idS.data ++ '/' :: (ver.data ++ '/' :: rest))
    (hne : files ≠ []) : level1Dirs files = [idS] := by
  unfold level1Dirs
  have hg : ∀ f ∈ files, ((firstComp f.path.data).map (fun x => x.1)) = some idS := by
    intro f hf
    obtain ⟨rest, hr⟩ := hshape f hf
    rw [hr, firstComp_shape idS hid (ver.data ++ '/' :: rest)]
    rfl
  rw [filterMap_all_some _ idS files hg]
  exact sortedDedup_map_const idS files hne

theorem level2Dirs_of_shape (idS ver : String) (hid : '/' ∉ idS.data)
    (hver : '/' ∉ ver.data) (files : List DiskFile)
    (hshape : ∀ f' ∈ files, ∃ rest : List Char,
      f'.path.data = idS.data ++ '/' :: (ver.data ++ '/' :: rest))
    (hne : files ≠ []) : level2Dirs files idS = [ver] := by
  unfold level2Dirs
  have hg : ∀ f ∈ files,
      (match firstComp f.path.data with
       | some (c, rest) => if c == idS then (firstComp rest).map (fun x => x.1) else none
       | none => none) = some ver := by
    intro f hf
    obtain ⟨rest, hr⟩ := hshape f hf
    rw [hr, firstComp_shape idS hid (ver.data ++ '/' :: rest)]
    dsimp only
    rw [beq_self_eq_true, if_pos rfl, firstComp_shape ver hver rest]
    rfl
  rw [filterMap_all_some _ ver files hg]
  exact sortedDedup_map_const ver files hne


theorem GetPackageFile_eq (σ : StoreState) (idS ver : String) (pkg : Bytes)
    (hread : readFile σ.files (filePathOf idS ver) = some pkg) :
    GetPackageFile σ idS ver =
      (some (pkg, "application/octet-stream"),
       { σ with
         downloadCounts := bumpCount σ.downloadCounts (idS ++ "/" ++ ver),
         savedCounts := bumpCount σ.downloadCounts (idS ++ "/" ++ ver),
         packages := updateVersionCount idS ver
           ((lookupCount (bumpCount σ.downloadCounts (idS ++ "/" ++ ver))
             (idS ++ "/" ++ ver)).getD 0) σ.packages }) := by
  unfold GetPackageFile
  simp only [hread]

theorem fetchN_single (idS ver : String) (pkg : Bytes) (σ1 : StoreState)
    (E : NugetPackageEntry)
    (hread : readFile σ1.files (filePathOf idS ver) = some pkg)
    (hcounts : σ1.downloadCounts = [])
    (hpkgs : σ1.packages = [E])
    (hEid : equalFold E.id idS = true) (hEver : (E.version == ver) = true) :
    ∀ n : Nat, fetchN idS ver (n + 1) σ1 =
      { σ1 with
        downloadCounts := [(idS ++ "/" ++ ver, (n : Int) + 1)],
        savedCounts := [(idS ++ "/" ++ ver, (n : Int) + 1)],
        packages := [{ E with versionDownloadCount := (n : Int) + 1 }] } := by
  intro n
  induction n with
  | zero =>
    show (GetPackageFile (fetchN idS ver 0 σ1) idS ver).2 = _
    rw [show fetchN idS ver 0 σ1 = σ1 from rfl]
    rw [GetPackageFile_eq σ1 idS ver pkg hread]
    rw [hcounts, bumpCount_nil, hpkgs]
    simp only [lookupCount_single_self, Option.getD_some, Nat.cast_zero, zero_add]
    simp only [updateVersionCount, hEid, hEver, Bool.and_self, if_true]
  | succ n ih =>
    show (GetPackageFile (fetchN idS ver (n + 1) σ1) idS ver).2 = _
    rw [ih]
    rw [GetPackageFile_eq _ idS ver pkg (by exact hread)]
    show ({ σ1 with
        downloadCounts := bumpCount [(idS ++ "/" ++ ver, (n : Int) + 1)] (idS ++ "/" ++ ver),
        savedCounts := bumpCount [(idS ++ "/" ++ ver, (n : Int) + 1)] (idS ++ "/" ++ ver),
        packages := updateVersionCount idS ver
          ((lookupCount (bumpCount [(idS ++ "/" ++ ver, (n : Int) + 1)] (idS ++ "/" ++ ver))
            (idS ++ "/" ++ ver)).getD 0)
          [{ E with versionDownloadCount := (n : Int) + 1 }] } : StoreState) = _
    rw [bumpCount_single_self]
    simp only [lookupCount_single_self, Option.getD_some]
    simp only [updateVersionCount, hEid, hEver, Bool.and_self, if_true]
    push_cast
    ring_nf

theorem GetPackageEntry_single (σ : StoreState) (E : NugetPackageEntry) (idS ver : String)
    (hpkgs : σ.packages = [E])
    (hEid : equalFold E.id idS = true) (hEver : (E.version == ver) = true) :
    (GetPackageEntry σ idS ver).1 =
      some { E with downloadCount := E.versionDownloadCount } := by
  unfold GetPackageEntry
  rw [hpkgs]
  simp only [List.filter_cons, List.filter_nil, hEid, hEver, Bool.and_self, if_true,
    List.foldl_cons, List.foldl_nil, List.getLast?_singleton, zero_add]

theorem LoadPackage_eq (R : ArchiveReader) (σ : StoreState) (fp : String)
    (file : DiskFile) (m : NuSpec) (fls : List (String × Bytes))
    (hfind : findFile σ.files fp = some file)
    (hex : R.extract file.data = some (m, fls)) :
    LoadPackage R σ fp = (none,
      { σ with
        packages := RecalculateLatestVersions (insertByFilename
          { id := m.id, version := m.version, published := file.mtime,
            isLatestVersion := false, isAbsoluteLatestVersion := false,
            versionDownloadCount := 0, downloadCount := 0,
            packageHash := R.hashHex file.data, packageSize := file.data.length,
            contentSrc := σ.baseURL ++ "nupkg/" ++ m.id ++ "/" ++ m.version,
            authors := m.authors, description := m.description, tags := m.tags }
          σ.packages),
        files := writeContentFiles σ.now (toLowerStr m.id ++ "/" ++ m.version ++ "/content")
          fls σ.files }) := by
  unfold LoadPackage
  rw [hfind]
  simp only [hex]

theorem loadVersions_single (R : ArchiveReader) (idName v : String) (σ σ2 : StoreState)
    (hfe : fileExists σ.files (filePathOf idName v) = true)
    (hlp : LoadPackage R σ (filePathOf idName v) = (none, σ2)) :
    loadVersions R idName [v] σ = σ2 := by
  simp only [loadVersions, hfe, if_true, hlp]

theorem loadIDs_single (R : ArchiveReader) (d : String) (σ : StoreState) :
    loadIDs R [d] σ = loadVersions R d (level2Dirs σ.files d) σ := rfl

theorem Init_single (R : ArchiveReader) (disk : List DiskFile)
    (saved : List (String × Int)) (baseURL now mt : String) (m : NuSpec)
    (fls : List (String × Bytes)) (pkg : Bytes)
    (hid : '/' ∉ m.id.data) (hver : '/' ∉ m.version.data)
    (hshape : ∀ f' ∈ disk, ∃ rest : List Char,
      f'.path.data = m.id.data ++ '/' :: (m.version.data ++ '/' :: rest))
    (hne : disk ≠ [])
    (hfind : findFile disk (filePathOf m.id m.version) =
      some ⟨filePathOf m.id m.version, pkg, mt⟩)
    (hex : R.extract pkg = some (m, fls)) :
    (Init R disk saved baseURL now).packages.map (fun p => p.versionDownloadCount) =
      [(lookupCount saved (m.id ++ "/" ++ m.version)).getD 0] := by
  have hl1 : level1Dirs disk = [m.id] :=
    level1Dirs_of_shape m.id m.version hid disk hshape hne
  have hl2 : level2Dirs disk m.id = [m.version] :=
    level2Dirs_of_shape m.id m.version hid hver disk hshape hne
  have hfe : fileExists disk (filePathOf m.id m.version) = true :=
    fileExists_of_findFile disk _ _ hfind
  have hLP := LoadPackage_eq R
    { files := disk, packages := [], downloadCounts := saved, savedCounts := saved,
      baseURL := baseURL, now := now }
    (filePathOf m.id m.version) ⟨filePathOf m.id m.version, pkg, mt⟩ m fls hfind hex
  have hLV := loadVersions_single R m.id m.version _ _ hfe hLP
  unfold Init RefeshPackages
  dsimp only
  rw [hl1, loadIDs_single]
  dsimp only
  rw [hl2, hLV]
  rfl


/-- C6 counterexample: the archive [9] has manifest id "Foo", stored under the
    lowercased id "foo".  One GetPackageFile for "foo"/"1.0" brings the
    in-memory versionDownloadCount to 1 and persists the counter under the key
    "foo/1.0", but the restart resync looks the entry up under its
    manifest-cased key "Foo/1.0" and resets the count to 0, not 1. -/
theorem C6_counterexample :
    ((fetchN "foo" "1.0" 1 (StorePackage fooReader emptyState [9]).2).packages.map
        (fun p => p.versionDownloadCount) = [(1 : Int)]) ∧
    ((restart fooReader
        (fetchN "foo" "1.0" 1 (StorePackage fooReader emptyState [9]).2)).packages.map
        (fun p => p.versionDownloadCount) = [(0 : Int)]) := by
  refine ⟨by decide, by decide⟩

/-- C6 (amended): starting from an empty store, store an archive whose
    manifest id is already lowercase, whose id and version are slash-free
    Clean-invariant path elements, and whose payload paths, once the leading
    content/ repeats are stripped, contain no empty, "." or ".." elements
    (so filepath.Join moves none of them out of the content directory), and
    fetch its file N+1 times via GetPackageFile under the manifest id and
    version.  The entry's versionDownloadCount is N+1; GetPackageEntry, the id
    having a single version, reports downloadCount = versionDownloadCount =
    N+1; and after a restart (persisted counter table reloaded by a fresh
    Init, archive root re-scanned) the entry's versionDownloadCount is still
    N+1. -/
theorem C6_counts_amended (R : ArchiveReader) (σ : StoreState) (pkg : Bytes)
    (m : NuSpec) (fls : List (String × Bytes)) (N : Nat)
    (hex : R.extract pkg = some (m, fls))
    (hlow : toLowerStr m.id = m.id)
    (hid : '/' ∉ m.id.data) (hver : '/' ∉ m.version.data)
    (hidseg : segOK m.id.data = true) (hverseg : segOK m.version.data = true)
    (hfls : ∀ fp ∈ fls, pathSegsOK (⟨stripContentRepeats fp.1.data⟩ : String) = true)
    (hfiles : σ.files = []) (hpkgs : σ.packages = [])
    (hcounts : σ.downloadCounts = []) :
    (fetchN m.id m.version (N + 1) (StorePackage R σ pkg).2).packages.map
        (fun p => p.versionDownloadCount) = [(N : Int) + 1] ∧
    (∃ e, (GetPackageEntry (fetchN m.id m.version (N + 1) (StorePackage R σ pkg).2)
        m.id m.version).1 = some e ∧
      e.downloadCount = (N : Int) + 1 ∧ e.versionDownloadCount = (N : Int) + 1) ∧
    (restart R (fetchN m.id m.version (N + 1) (StorePackage R σ pkg).2)).packages.map
        (fun p => p.versionDownloadCount) = [(N : Int) + 1] := by
  have hfresh : fileExists σ.files (nupkgPathOf m) = false := by
    rw [hfiles]
    rfl
  have h1 := StorePackage_success R σ pkg m fls hex hfresh
  have hσ2 : (StorePackage R σ pkg).2 = storeSuccessState R σ m fls pkg := by rw [h1]
  rw [hσ2]
  have hσ1pkgs : (storeSuccessState R σ m fls pkg).packages =
      [markLatest [storedEntry R σ.now σ.baseURL m pkg]
        (storedEntry R σ.now σ.baseURL m pkg)] := by
    show RecalculateLatestVersions
      (insertByFilename (storedEntry R σ.now σ.baseURL m pkg) σ.packages) = _
    rw [hpkgs]
    rfl
  have hσ1counts : (storeSuccessState R σ m fls pkg).downloadCounts = [] := by
    show σ.downloadCounts = []
    exact hcounts
  have hpathEq : filePathOf m.id m.version = nupkgPathOf m := by
    unfold nupkgPathOf
    rw [hlow]
  have hidlow : '/' ∉ (toLowerStr m.id).data := by
    rw [hlow]
    exact hid
  have hidseglow : segOK (toLowerStr m.id).data = true := by
    rw [hlow]
    exact hidseg
  have hread : readFile (storeSuccessState R σ m fls pkg).files
      (filePathOf m.id m.version) = some pkg := by
    rw [hpathEq]
    exact readFile_storeSuccess R σ m fls pkg hidlow hver hidseglow hverseg hfls
  have hfetch := fetchN_single m.id m.version pkg (storeSuccessState R σ m fls pkg)
    (markLatest [storedEntry R σ.now σ.baseURL m pkg]
      (storedEntry R σ.now σ.baseURL m pkg))
    hread hσ1counts hσ1pkgs (equalFold_refl m.id) (beq_self_eq_true m.version) N
  rw [hfetch]
  refine ⟨rfl, ?_, ?_⟩
  · exact ⟨_, GetPackageEntry_single _ _ m.id m.version rfl (equalFold_refl m.id)
      (beq_self_eq_true m.version), rfl, rfl⟩
  · have hshape2 := storeSuccess_path_shape R σ m fls pkg hfiles hlow hid hver
      hidseg hverseg hfls
    have hfind : findFile (storeSuccessState R σ m fls pkg).files
        (filePathOf m.id m.version) = some ⟨filePathOf m.id m.version, pkg, σ.now⟩ := by
      rw [hpathEq]
      exact findFile_storeSuccess R σ m fls pkg hidlow hver hidseglow hverseg hfls
    have hne := ne_nil_of_fileExists _ _ (fileExists_of_findFile _ _ _ hfind)
    have hinit := Init_single R ((storeSuccessState R σ m fls pkg).files)
      [(m.id ++ "/" ++ m.version, (N : Int) + 1)]
      ((storeSuccessState R σ m fls pkg).baseURL)
      ((storeSuccessState R σ m fls pkg).now)
      ((storeSuccessState R σ m fls pkg).now)
      m fls pkg hid hver hshape2 hne hfind hex
    unfold restart
    dsimp only
    rw [hinit, lookupCount_single_self]
    rfl

/-- C6 witness: the archive [7] (manifest id "pkg", already lowercase) stored
    into the empty store and fetched once. -/
theorem C6_witness :
    (fetchN "pkg" "1.0" 1 (StorePackage testReader emptyState [7]).2).packages.map
        (fun p => p.versionDownloadCount) = [(1 : Int)] ∧
    (∃ e, (GetPackageEntry (fetchN "pkg" "1.0" 1 (StorePackage testReader emptyState [7]).2)
        "pkg" "1.0").1 = some e ∧
      e.downloadCount = (1 : Int) ∧ e.versionDownloadCount = (1 : Int)) ∧
    (restart testReader
        (fetchN "pkg" "1.0" 1 (StorePackage testReader emptyState [7]).2)).packages.map
        (fun p => p.versionDownloadCount) = [(1 : Int)] :=
  C6_counts_amended testReader emptyState [7] testNuSpec
    [("content/readme.txt", [1, 2])] 0
    (by decide) (by decide) (by decide) (by decide) (by decide) (by decide) (by decide)
    rfl rfl rfl

/-- C9: RemovePackage drops the matching catalog entry and recomputes the
    latest flags, but its deletion targets rootDir/content/<fn>, a path the
    store never writes: the extracted payload actually lives under
    rootDir/<lowercased-id>/<version>/content/, so it survives the removal
    (on the concrete store of archive [7], the disk is entirely unchanged). -/
theorem C9_remove_leaves_payload :
    (countIdVer (StorePackage testReader emptyState [7]).2.packages "pkg" "1.0" = 1) ∧
    (fileExists (StorePackage testReader emptyState [7]).2.files
      "pkg/1.0/content/readme.txt" = true) ∧
    (countIdVer (RemovePackage (StorePackage testReader emptyState [7]).2
      "pkg.1.0").packages "pkg" "1.0" = 0) ∧
    (fileExists (RemovePackage (StorePackage testReader emptyState [7]).2
      "pkg.1.0").files "pkg/1.0/content/readme.txt" = true) ∧
    ((RemovePackage (StorePackage testReader emptyState [7]).2 "pkg.1.0").files =
      (StorePackage testReader emptyState [7]).2.files) := by
  refine ⟨by decide, by decide, by decide, by decide, by decide⟩

end NugetServer
